import Mathlib

/-!
# Verification of the QNET expression-simplification core

This file gives a shallow embedding, in Lean 4, of the rule-based rewriting
and simplification machinery of the QNET symbolic algebra package
(`qnet/algebra/core/algebraic_properties.py`,
`qnet/algebra/core/abstract_quantum_algebra.py`,
`qnet/algebra/core/operator_algebra.py`), together with theorems settling a
list of claims about that code.

Python functions are translated into executable Lean definitions:

* rule tables become lists of (pattern, replacement) pairs, where a pattern
  is a function returning an optional binding and a replacement either
  returns a value or signals `CannotSimplify` (modelled by `Option`);
* the recursive binary reducer `_match_replace_binary_combine`, whose Python
  original can diverge for pathological rule tables, takes an explicit fuel
  argument and returns `none` when the fuel runs out;
* the expression trees of the operator algebra become the inductive type
  `OpExpr`; machinery whose source module is not part of the repository
  snapshot (the `create` pipeline driver, the order keys, the Hilbert space
  and scalar algebras) is modelled from the specification document, as noted
  in the corresponding doc comments.
-/

namespace QnetProof

/-! ## Part 1: the rule-based rewriter (`match_replace`)

Transcribed from `algebraic_properties.py`.  A `ProtoExpr` is the
pattern-matching view of a candidate under construction: its operand list
and keyword arguments.  A rule is a pattern (modelled extensionally as the
function `ProtoExpr → Option B` computed by `match_pattern pat`) together
with a replacement callable; a replacement returning `none` models the
callable raising `CannotSimplify`. -/

structure ProtoExpr (E K : Type) where
  args : List E
  kwargs : K

/-- One entry of a class's ordered `_rules` table. -/
structure MRule (E K B : Type) where
  pat : ProtoExpr E K → Option B
  replacement : B → Option E

/-- Outcome of a simplification pass: either a single finished expression
(short-circuiting the pipeline) or a transformed `(operands, kwargs)` pair. -/
inductive MRResult (E K : Type) where
  | done (e : E)
  | pair (ops : List E) (kwargs : K)
deriving DecidableEq

/-- Transcription of `match_replace` (`algebraic_properties.py`, 126-200):
try each rule of the ordered table in insertion order; on the first pattern
match invoke the replacement with the bound wildcards; a replacement raising
`CannotSimplify` (`none`) means "continue with the next rule"; when no rule
fires, return the original `(ops, kwargs)` pair unchanged. -/
def match_replace {E K B : Type} (rules : List (MRule E K B)) (ops : List E)
    (kwargs : K) : MRResult E K :=
  match rules with
  | [] => .pair ops kwargs
  | r :: rest =>
    match r.pat ⟨ops, kwargs⟩ with
    | some b =>
      match r.replacement b with
      | some replaced => .done replaced
      | none => match_replace rest ops kwargs
    | none => match_replace rest ops kwargs

/-- A rule fires on a candidate when its pattern matches and its replacement
does not raise `CannotSimplify`. -/
def ruleFires {E K B : Type} (r : MRule E K B) (e : ProtoExpr E K) : Option E :=
  (r.pat e).bind r.replacement

theorem match_replace_nil {E K B : Type} (ops : List E) (kwargs : K) :
    match_replace ([] : List (MRule E K B)) ops kwargs = .pair ops kwargs := rfl

theorem match_replace_cons_hit {E K B : Type} (r : MRule E K B)
    (rest : List (MRule E K B)) (ops : List E) (kwargs : K) (b : B) (v : E)
    (hp : r.pat ⟨ops, kwargs⟩ = some b) (hr : r.replacement b = some v) :
    match_replace (r :: rest) ops kwargs = .done v := by
  simp [match_replace, hp, hr]

theorem match_replace_cons_cannot {E K B : Type} (r : MRule E K B)
    (rest : List (MRule E K B)) (ops : List E) (kwargs : K) (b : B)
    (hp : r.pat ⟨ops, kwargs⟩ = some b) (hr : r.replacement b = none) :
    match_replace (r :: rest) ops kwargs = match_replace rest ops kwargs := by
  simp [match_replace, hp, hr]

theorem match_replace_cons_nomatch {E K B : Type} (r : MRule E K B)
    (rest : List (MRule E K B)) (ops : List E) (kwargs : K)
    (hp : r.pat ⟨ops, kwargs⟩ = none) :
    match_replace (r :: rest) ops kwargs = match_replace rest ops kwargs := by
  simp [match_replace, hp]

theorem match_replace_no_fire {E K B : Type} (rules : List (MRule E K B))
    (ops : List E) (kwargs : K)
    (h : ∀ r ∈ rules, ruleFires r ⟨ops, kwargs⟩ = none) :
    match_replace rules ops kwargs = .pair ops kwargs := by
  induction rules with
  | nil => rfl
  | cons r rest ih =>
    have hr := h r (List.mem_cons_self r rest)
    have hrest : ∀ r' ∈ rest, ruleFires r' ⟨ops, kwargs⟩ = none :=
      fun r' hmem => h r' (List.mem_cons_of_mem r hmem)
    unfold ruleFires at hr
    match hp : r.pat ⟨ops, kwargs⟩ with
    | none => rw [match_replace_cons_nomatch r rest ops kwargs hp]; exact ih hrest
    | some b =>
      simp only [hp, Option.bind] at hr
      rw [match_replace_cons_cannot r rest ops kwargs b hp hr]
      exact ih hrest

/-- C3.  `match_replace` tries the rules in insertion order: the first rule
whose pattern matches and whose replacement does not raise `CannotSimplify`
determines the result; a matching rule raising `CannotSimplify` is skipped
(not fatal); a non-matching rule is skipped; and when every rule either
fails to match or raises `CannotSimplify`, the original `(ops, kwargs)` pair
is returned unchanged. -/
theorem claim_C3_match_replace {E K B : Type} (r : MRule E K B)
    (rules rest : List (MRule E K B)) (ops : List E) (kwargs : K) :
    (∀ b v, r.pat ⟨ops, kwargs⟩ = some b → r.replacement b = some v →
      match_replace (r :: rest) ops kwargs = .done v) ∧
    (∀ b, r.pat ⟨ops, kwargs⟩ = some b → r.replacement b = none →
      match_replace (r :: rest) ops kwargs = match_replace rest ops kwargs) ∧
    (r.pat ⟨ops, kwargs⟩ = none →
      match_replace (r :: rest) ops kwargs = match_replace rest ops kwargs) ∧
    ((∀ r' ∈ rules, ruleFires r' ⟨ops, kwargs⟩ = none) →
      match_replace rules ops kwargs = .pair ops kwargs) :=
  ⟨fun b v hp hr => match_replace_cons_hit r rest ops kwargs b v hp hr,
   fun b hp hr => match_replace_cons_cannot r rest ops kwargs b hp hr,
   fun hp => match_replace_cons_nomatch r rest ops kwargs hp,
   fun h => match_replace_no_fire rules ops kwargs h⟩

/-! ## Part 2: the binary pairwise reducer (`match_replace_binary`)

Transcribed from `algebraic_properties.py`, 203-293.  A `BinOpClass`
captures what the reducer uses of an associative operation class `cls`:

* `binReplace a b` is `_get_binary_replacement(a, b, cls)`: the result of
  the first rule of `cls._binary_rules` that fires on the pair, `none` when
  no rule matches (or every matching rule raises `CannotSimplify`);
* `neutral` is `cls.neutral_element`;
* `isInstance r` models `isinstance(r, cls)` and `argsOf r` models
  `list(r.args)` for such an `r`.

The Python `_match_replace_binary_combine` recursion is not structurally
decreasing (a spliced replacement may lengthen the boundary), and the spec
acknowledges that pathological rule sets may loop; the embedding therefore
takes a fuel argument and returns `none` on fuel exhaustion. -/

structure BinOpClass (E : Type) where
  binReplace : E → E → Option E
  neutral : E
  isInstance : E → Bool
  argsOf : E → List E

variable {E K : Type} [DecidableEq E]

/-- Transcription of `_match_replace_binary_combine` ("combine two fully
reduced lists a, b"): look up a binary replacement for the boundary pair
(last of `a`, head of `b`); no replacement concatenates the lists as-is; a
replacement equal to the neutral element drops both boundary operands and
retries; otherwise the replacement (spliced into its operands when it is an
instance of the class) is merged back in on both sides. -/
def combineF (c : BinOpClass E) : ℕ → List E → List E → Option (List E)
  | 0, _, _ => none
  | fuel + 1, a, b =>
    match a.getLast?, b.head? with
    | some la, some hb =>
      match c.binReplace la hb with
      | none => some (a ++ b)
      | some r =>
        if r = c.neutral then combineF c fuel a.dropLast b.tail
        else
          let rops := if c.isInstance r then c.argsOf r else [r]
          match combineF c fuel a.dropLast rops with
          | none => none
          | some x => combineF c fuel x b.tail
    | _, _ => some (a ++ b)

/-- Transcription of `_match_replace_binary` ("reduce list of ops"): a list
of length at most one is returned unchanged; otherwise the list is split at
`n / 2`, both halves are reduced recursively, and the reduced halves are
merged with `combineF`.  The Python function recurses on shorter lists with
no explicit bound; the embedding spends one unit of fuel per level, so any
fuel above the list's length reproduces the Python behaviour. -/
def mrbF (c : BinOpClass E) : ℕ → List E → Option (List E)
  | 0, _ => none
  | fuel + 1, ops =>
    if ops.length ≤ 1 then some ops
    else
      match mrbF c fuel (ops.take (ops.length / 2)),
          mrbF c fuel (ops.drop (ops.length / 2)) with
      | some left, some right => combineF c fuel left right
      | _, _ => none

/-- Transcription of `match_replace_binary` (`algebraic_properties.py`,
224-261): reduce the operand list; an empty result collapses to the neutral
element, a singleton result is returned unwrapped, and any longer result is
passed on as a `(fops, kwargs)` pair. -/
def match_replace_binaryF (c : BinOpClass E) (fuel : ℕ) (ops : List E)
    (kwargs : K) : Option (MRResult E K) :=
  (mrbF c fuel ops).map fun fops =>
    match fops with
    | [x] => .done x
    | [] => .done c.neutral
    | _ => .pair fops kwargs

theorem combineF_no_rule (c : BinOpClass E) (fuel : ℕ) (a b : List E)
    (la hb : E) (ha : a.getLast? = some la) (hb' : b.head? = some hb)
    (hr : c.binReplace la hb = none) :
    combineF c (fuel + 1) a b = some (a ++ b) := by
  simp [combineF, ha, hb', hr]

theorem combineF_neutral (c : BinOpClass E) (fuel : ℕ) (a b : List E)
    (la hb : E) (ha : a.getLast? = some la) (hb' : b.head? = some hb)
    (hr : c.binReplace la hb = some c.neutral) :
    combineF c (fuel + 1) a b = combineF c fuel a.dropLast b.tail := by
  simp [combineF, ha, hb', hr]

theorem combineF_splice (c : BinOpClass E) (fuel : ℕ) (a b : List E)
    (la hb r : E) (ha : a.getLast? = some la) (hb' : b.head? = some hb)
    (hr : c.binReplace la hb = some r) (hne : r ≠ c.neutral)
    (hinst : c.isInstance r = true) :
    combineF c (fuel + 1) a b =
      (combineF c fuel a.dropLast (c.argsOf r)).bind
        (fun x => combineF c fuel x b.tail) := by
  simp only [combineF, ha, hb', hr, if_neg hne, hinst, if_pos]
  match h : combineF c fuel a.dropLast (c.argsOf r) with
  | none => rfl
  | some x => rfl

theorem combineF_empty (c : BinOpClass E) (fuel : ℕ) (a b : List E)
    (h : a = [] ∨ b = []) : combineF c (fuel + 1) a b = some (a ++ b) := by
  rcases h with h | h <;> subst h <;> simp [combineF]

/-- C1.  For an associative operation class with a neutral element and a
binary rule table, `match_replace_binary` wraps the fully reduced operand
list: the neutral element when it is empty, the single remaining operand
unwrapped, otherwise the `(fops, kwargs)` pair; and the merge of two
reduced halves drops both boundary operands and retries when the binary
replacement of the boundary pair equals the neutral element, splices the
replacement's operands into the boundary and retries when the replacement
is an instance of the class itself, and concatenates the two lists as-is
when no binary rule matches. -/
theorem claim_C1_match_replace_binary (c : BinOpClass E) (fuel : ℕ)
    (ops a b : List E) (kwargs : K) (la hb : E) :
    (∀ fops, mrbF c fuel ops = some fops →
      ((fops = [] →
        match_replace_binaryF c fuel ops kwargs = some (.done c.neutral)) ∧
       (∀ x, fops = [x] →
        match_replace_binaryF c fuel ops kwargs = some (.done x)) ∧
       (2 ≤ fops.length →
        match_replace_binaryF c fuel ops kwargs =
          some (.pair fops kwargs)))) ∧
    (a.getLast? = some la → b.head? = some hb →
      ((c.binReplace la hb = none →
         combineF c (fuel + 1) a b = some (a ++ b)) ∧
       (c.binReplace la hb = some c.neutral →
         combineF c (fuel + 1) a b = combineF c fuel a.dropLast b.tail) ∧
       (∀ r, c.binReplace la hb = some r → r ≠ c.neutral →
         c.isInstance r = true →
         combineF c (fuel + 1) a b =
           (combineF c fuel a.dropLast (c.argsOf r)).bind
             (fun x => combineF c fuel x b.tail)))) := by
  constructor
  · intro fops hm
    refine ⟨?_, ?_, ?_⟩
    · rintro rfl
      simp [match_replace_binaryF, hm]
    · rintro x rfl
      simp [match_replace_binaryF, hm]
    · intro hlen
      match fops, hlen with
      | x :: y :: rest, _ =>
        simp [match_replace_binaryF, hm]
  · intro ha hb'
    exact ⟨fun hr => combineF_no_rule c fuel a b la hb ha hb' hr,
      fun hr => combineF_neutral c fuel a b la hb ha hb' hr,
      fun r hr hne hinst =>
        combineF_splice c fuel a b la hb r ha hb' hr hne hinst⟩

/-- A small concrete binary-rule class on `ℕ`: the only binary rule rewrites
the adjacent pair `(1, 1)` to `2`; the neutral element is `0`. -/
def demoBinClass : BinOpClass ℕ :=
  ⟨fun x y => if x = 1 ∧ y = 1 then some 2 else none, 0,
   fun _ => false, fun _ => []⟩

/-- Concrete run of C1 on `demoBinClass`: reducing `[1, 1, 3]` merges the
`(1, 1)` boundary pair into `2` and wraps the reduced list as an operand
pair, and a boundary pair on which no rule fires concatenates as-is. -/
theorem claim_C1_witness :
    match_replace_binaryF demoBinClass 5 [1, 1, 3] () = some (.pair [2, 3] ()) ∧
    combineF demoBinClass 5 [1, 2] [3] = some [1, 2, 3] := by
  constructor
  · exact ((claim_C1_match_replace_binary demoBinClass 5 [1, 1, 3] [] []
      () 0 0).1 [2, 3] (by decide)).2.2 (by decide)
  · exact ((claim_C1_match_replace_binary demoBinClass 4 [] [1, 2] [3]
      () 2 3).2 (by decide) (by decide)).1 (by decide)

/-- Concrete rules for C3 on `ℕ` candidates: `demoRuleA` matches the operand
list `[5]` but its replacement raises `CannotSimplify`; `demoRuleB` matches
any single operand and replaces the expression by that operand plus one. -/
def demoRuleA : MRule ℕ Unit ℕ :=
  ⟨fun e => if e.args = [5] then some 5 else none, fun _ => none⟩

/-- Second demo rule for C3; see `demoRuleA`. -/
def demoRuleB : MRule ℕ Unit ℕ :=
  ⟨fun e => match e.args with | [x] => some x | _ => none,
   fun b => some (b + 1)⟩

/-- Concrete run of C3: on `[5]` the first rule matches but raises
`CannotSimplify`, so the second rule produces the result; with the first
rule alone the original pair is returned unchanged. -/
theorem claim_C3_witness :
    match_replace [demoRuleA, demoRuleB] [5] () = .done 6 ∧
    match_replace [demoRuleA] [5] () = .pair [5] () := by
  constructor
  · rw [(claim_C3_match_replace demoRuleA [] [demoRuleB] [5] ()).2.1 5
      (by decide) rfl]
    exact (claim_C3_match_replace demoRuleB [] [] [5] ()).1 5 6 rfl rfl
  · exact (claim_C3_match_replace demoRuleA [demoRuleA] [] [5] ()).2.2.2
      (by intro r' hr'; simp at hr'; subst hr'; rfl)

/-! ## Part 3: the divide-and-conquer reducer versus the sequential fixpoint

For the refinement claim C2, the spec-side reference computation
("exhaustively applying the binary rule to adjacent pairs in sequence until
a fixpoint is reached") is modelled by `seqStep`/`seqFixF`: one step applies
the class's binary replacement to the first adjacent pair on which a rule
fires, interpreting the replacement exactly as the merge does (a neutral
replacement drops the pair, a class instance is spliced, any other
replacement takes the pair's place), and the fixpoint iterates until no
rule fires. -/

/-- Modelled from the spec: apply the binary rule to the first adjacent pair
on which it fires, or return `none` at a fixpoint. -/
def seqStep (c : BinOpClass E) : List E → Option (List E)
  | [] => none
  | [_] => none
  | x :: y :: rest =>
    match c.binReplace x y with
    | some r =>
      some (if r = c.neutral then rest
        else (if c.isInstance r then c.argsOf r else [r]) ++ rest)
    | none => (seqStep c (y :: rest)).map (x :: ·)

/-- Modelled from the spec: iterate `seqStep` until a fixpoint is reached
(with fuel, since an arbitrary rule table need not terminate). -/
def seqFixF (c : BinOpClass E) : ℕ → List E → Option (List E)
  | 0, _ => none
  | fuel + 1, l =>
    match seqStep c l with
    | none => some l
    | some next => seqFixF c fuel next

/-- The binary-rule table of an operation whose only rules cancel an
adjacent pair `(x, inv x)` to the neutral element — the "adjacent
cancelling pairs" workload named by the claim. -/
def cancelClass (inv : E → E) (neutral : E) : BinOpClass E :=
  ⟨fun x y => if y = inv x then some neutral else none, neutral,
   fun _ => false, fun _ => []⟩

/-- One right-fold step of free cancellation: prepend `x` to an already
cancelled list, cancelling against its head when possible. -/
def rstep (inv : E → E) (x : E) (r : List E) : List E :=
  match r with
  | [] => [x]
  | y :: ys => if y = inv x then ys else x :: y :: ys

/-- The fully cancelled form of a list. -/
def nf (inv : E → E) (l : List E) : List E := l.foldr (rstep inv) []

/-- A list with no adjacent cancelling pair. -/
def Reduced (inv : E → E) (l : List E) : Prop :=
  l.Chain' (fun p q => q ≠ inv p)

theorem nf_nil (inv : E → E) : nf inv [] = [] := rfl

theorem nf_cons (inv : E → E) (x : E) (l : List E) :
    nf inv (x :: l) = rstep inv x (nf inv l) := rfl

theorem rstep_reduced {inv : E → E} {r : List E} (h : Reduced inv r) (x : E) :
    Reduced inv (rstep inv x r) := by
  match r with
  | [] => simp [rstep, Reduced]
  | y :: ys =>
    by_cases hc : y = inv x
    · simp only [rstep, if_pos hc]
      exact h.tail
    · simp only [rstep, if_neg hc]
      exact List.chain'_cons.mpr ⟨hc, h⟩

theorem nf_reduced (inv : E → E) (l : List E) : Reduced inv (nf inv l) := by
  induction l with
  | nil => simp [nf, Reduced]
  | cons x xs ih => rw [nf_cons]; exact rstep_reduced ih x

theorem Reduced.nf_eq {inv : E → E} :
    ∀ {l : List E}, Reduced inv l → nf inv l = l
  | [], _ => rfl
  | [x], _ => rfl
  | x :: y :: l, h => by
    have hxy : y ≠ inv x := (List.chain'_cons.mp h).1
    have ht : Reduced inv (y :: l) := (List.chain'_cons.mp h).2
    rw [nf_cons, Reduced.nf_eq ht, rstep, if_neg hxy]

theorem nf_append (inv : E → E) (a b : List E) :
    nf inv (a ++ b) = a.foldr (rstep inv) (nf inv b) := by
  simp [nf, List.foldr_append]

theorem rstep_rstep {inv : E → E} (hinv : ∀ x, inv (inv x) = x) {r : List E}
    (h : Reduced inv r) (x : E) :
    rstep inv x (rstep inv (inv x) r) = r := by
  match r with
  | [] => simp [rstep]
  | z :: zs =>
    by_cases hz : z = inv (inv x)
    · rw [hinv] at hz
      subst hz
      rw [rstep, if_pos (by rw [hinv])]
      match zs, h with
      | [], _ => simp [rstep]
      | w :: ws, h =>
        have hw : w ≠ inv z := (List.chain'_cons.mp h).1
        simp [rstep, hw]
    · rw [hinv] at hz
      rw [rstep, if_neg (by rw [hinv]; exact hz), rstep, if_pos rfl]

theorem nf_cancel_cons {inv : E → E} (hinv : ∀ x, inv (inv x) = x) (x : E)
    (v : List E) : nf inv (x :: inv x :: v) = nf inv v := by
  rw [nf_cons, nf_cons]
  exact rstep_rstep hinv (nf_reduced inv v) x

theorem nf_cancel_append {inv : E → E} (hinv : ∀ x, inv (inv x) = x)
    (u : List E) (x : E) (v : List E) :
    nf inv (u ++ x :: inv x :: v) = nf inv (u ++ v) := by
  rw [nf_append, nf_append, nf_cancel_cons hinv]

theorem nf_nf_append {inv : E → E} (hinv : ∀ x, inv (inv x) = x) :
    ∀ (a c : List E), nf inv (nf inv a ++ c) = nf inv (a ++ c) := by
  intro a
  induction a with
  | nil => intro c; rfl
  | cons x xs ih =>
    intro c
    have hR : nf inv ((x :: xs) ++ c) = rstep inv x (nf inv (xs ++ c)) := rfl
    rw [hR]
    match hxs : nf inv xs with
    | [] =>
      have h1 : nf inv (x :: xs) = [x] := by rw [nf_cons, hxs]; rfl
      have h2 : nf inv (xs ++ c) = nf inv c := by rw [← ih c, hxs]; rfl
      rw [h1, h2]
      rfl
    | y :: ys =>
      have hys : nf inv (xs ++ c) = rstep inv y (nf inv (ys ++ c)) := by
        rw [← ih c, hxs]
        rfl
      by_cases hc : y = inv x
      · have hL : nf inv (x :: xs) = ys := by
          rw [nf_cons, hxs, rstep, if_pos hc]
        rw [hL, hys, hc]
        exact (rstep_rstep hinv (nf_reduced inv (ys ++ c)) x).symm
      · have hL : nf inv (x :: xs) = x :: y :: ys := by
          rw [nf_cons, hxs, rstep, if_neg hc]
        rw [hL, hys]
        rfl

theorem nf_append_nf {inv : E → E} (a b : List E) :
    nf inv (a ++ nf inv b) = nf inv (a ++ b) := by
  rw [nf_append, nf_append, (nf_reduced inv b).nf_eq]

theorem rstep_length_le (inv : E → E) (x : E) (r : List E) :
    (rstep inv x r).length ≤ r.length + 1 := by
  match r with
  | [] => simp [rstep]
  | y :: ys =>
    by_cases hc : y = inv x <;> simp [rstep, hc] <;> omega

theorem nf_length_le (inv : E → E) (l : List E) :
    (nf inv l).length ≤ l.length := by
  induction l with
  | nil => simp [nf]
  | cons x xs ih =>
    rw [nf_cons]
    calc (rstep inv x (nf inv xs)).length ≤ (nf inv xs).length + 1 :=
          rstep_length_le inv x (nf inv xs)
      _ ≤ xs.length + 1 := by omega
      _ = (x :: xs).length := by simp

theorem Reduced.dropLast {inv : E → E} {a : List E} (h : Reduced inv a) :
    Reduced inv a.dropLast := by
  match a with
  | [] => exact h
  | x :: xs =>
    have : Reduced inv ((x :: xs).dropLast ++ [(x :: xs).getLast (by simp)]) := by
      rw [List.dropLast_append_getLast]; exact h
    exact this.left_of_append

theorem reduced_append {inv : E → E} {a b : List E} (ha : Reduced inv a)
    (hb : Reduced inv b) (la hd : E) (hla : a.getLast? = some la)
    (hhd : b.head? = some hd) (hne : hd ≠ inv la) : Reduced inv (a ++ b) := by
  rw [Reduced, List.chain'_append]
  refine ⟨ha, hb, ?_⟩
  intro x hx y hy
  rw [hla, Option.mem_some_iff] at hx
  rw [hhd, Option.mem_some_iff] at hy
  subst hx; subst hy
  exact hne

theorem combineF_cancel_nf {inv : E → E} (hinv : ∀ x, inv (inv x) = x)
    (neutral : E) :
    ∀ (fuel : ℕ) (a b : List E), Reduced inv a → Reduced inv b →
      a.length < fuel →
      combineF (cancelClass inv neutral) fuel a b = some (nf inv (a ++ b)) := by
  intro fuel
  induction fuel with
  | zero => intro a b _ _ h; omega
  | succ fuel ih =>
    intro a b ha hb hlen
    match hma : a.getLast?, hmb : b.head? with
    | none, _ =>
      rw [List.getLast?_eq_none_iff] at hma
      subst hma
      simp only [List.nil_append, (combineF_empty (cancelClass inv neutral)
        fuel [] b (Or.inl rfl)), List.nil_append]
      rw [hb.nf_eq]
    | some la, none =>
      rw [List.head?_eq_none_iff] at hmb
      subst hmb
      rw [combineF_empty (cancelClass inv neutral) fuel a [] (Or.inr rfl),
        List.append_nil, ha.nf_eq]
    | some la, some hd =>
      have hane : a ≠ [] := by
        intro h; subst h; simp at hma
      have hbne : b ≠ [] := by
        intro h; subst h; simp at hmb
      by_cases hc : hd = inv la
      · have hr : (cancelClass inv neutral).binReplace la hd = some neutral := by
          simp [cancelClass, hc]
        rw [combineF_neutral (cancelClass inv neutral) fuel a b la hd hma hmb hr]
        have hlen' : a.dropLast.length < fuel := by
          have : a.length ≠ 0 := by simpa [List.length_eq_zero] using hane
          simp only [List.length_dropLast]
          omega
        rw [ih a.dropLast b.tail ha.dropLast hb.tail hlen']
        have h1 : a.dropLast ++ [la] = a := by
          have hg : a.getLast hane = la := by
            rw [List.getLast?_eq_getLast a hane] at hma
            exact Option.some_inj.mp hma
          rw [← hg]
          exact List.dropLast_append_getLast hane
        have h2 : inv la :: b.tail = b := by
          have hh : b.head hbne = hd := by
            rw [List.head?_eq_head hbne] at hmb
            exact Option.some_inj.mp hmb
          rw [← hc, ← hh]
          exact List.head_cons_tail b hbne
        have hsplit : a ++ b = a.dropLast ++ la :: inv la :: b.tail := by
          rw [← h1, ← h2]
          simp
        rw [hsplit, nf_cancel_append hinv]
      · have hr : (cancelClass inv neutral).binReplace la hd = none := by
          simp [cancelClass, hc]
        rw [combineF_no_rule (cancelClass inv neutral) fuel a b la hd hma hmb hr]
        rw [(reduced_append ha hb la hd hma hmb hc).nf_eq]

theorem mrbF_cancel_nf {inv : E → E} (hinv : ∀ x, inv (inv x) = x)
    (neutral : E) :
    ∀ (fuel : ℕ) (l : List E), l.length < fuel →
      mrbF (cancelClass inv neutral) fuel l = some (nf inv l) := by
  intro fuel
  induction fuel with
  | zero => intro l h; omega
  | succ fuel ih =>
    intro l hlen
    by_cases hle : l.length ≤ 1
    · rw [mrbF, if_pos hle]
      match l, hle with
      | [], _ => rfl
      | [x], _ => rfl
    · rw [mrbF, if_neg hle]
      have htake : (l.take (l.length / 2)).length < fuel := by
        simp only [List.length_take]
        omega
      have hdrop : (l.drop (l.length / 2)).length < fuel := by
        simp only [List.length_drop]
        omega
      rw [ih (l.take (l.length / 2)) htake, ih (l.drop (l.length / 2)) hdrop]
      have hnlen : (nf inv (l.take (l.length / 2))).length < fuel :=
        Nat.lt_of_le_of_lt (nf_length_le inv _) htake
      show combineF (cancelClass inv neutral) fuel
        (nf inv (l.take (l.length / 2))) (nf inv (l.drop (l.length / 2))) =
          some (nf inv l)
      rw [combineF_cancel_nf hinv neutral fuel _ _
        (nf_reduced inv _) (nf_reduced inv _) hnlen]
      rw [nf_nf_append hinv, nf_append_nf, List.take_append_drop]

theorem seqStep_cancel_none_iff {inv : E → E} (neutral : E) :
    ∀ l : List E, seqStep (cancelClass inv neutral) l = none ↔ Reduced inv l := by
  intro l
  match l with
  | [] => simp [seqStep, Reduced]
  | [x] => simp [seqStep, Reduced]
  | x :: y :: rest =>
    by_cases hc : y = inv x
    · have : (cancelClass inv neutral).binReplace x y = some neutral := by
        simp [cancelClass, hc]
      rw [seqStep, this]
      simp only [Option.some_ne_none, false_iff]
      intro hred
      exact (List.chain'_cons.mp hred).1 hc
    · have : (cancelClass inv neutral).binReplace x y = none := by
        simp [cancelClass, hc]
      rw [seqStep, this]
      rw [Option.map_eq_none', seqStep_cancel_none_iff neutral (y :: rest)]
      constructor
      · intro h
        exact List.chain'_cons.mpr ⟨hc, h⟩
      · intro h
        exact (List.chain'_cons.mp h).2

theorem seqStep_cancel_some {inv : E → E} (hinv : ∀ x, inv (inv x) = x)
    (neutral : E) :
    ∀ (l next : List E), seqStep (cancelClass inv neutral) l = some next →
      nf inv next = nf inv l ∧ next.length + 2 = l.length := by
  intro l
  match l with
  | [] => intro next h; simp [seqStep] at h
  | [x] => intro next h; simp [seqStep] at h
  | x :: y :: rest =>
    intro next h
    by_cases hc : y = inv x
    · have hbr : (cancelClass inv neutral).binReplace x y = some neutral := by
        simp [cancelClass, hc]
      rw [seqStep, hbr] at h
      have hnext : next = rest := by
        simp only [Option.some_inj] at h
        rw [← h]
        simp [cancelClass]
      subst hnext
      constructor
      · rw [hc, nf_cancel_cons hinv]
      · simp
    · have hbr : (cancelClass inv neutral).binReplace x y = none := by
        simp [cancelClass, hc]
      rw [seqStep, hbr] at h
      match hs : seqStep (cancelClass inv neutral) (y :: rest) with
      | none => rw [hs] at h; simp at h
      | some next' =>
        rw [hs] at h
        have hnext : next = x :: next' := by simpa using h.symm
        subst hnext
        have := seqStep_cancel_some hinv neutral (y :: rest) next' hs
        constructor
        · rw [nf_cons, nf_cons, this.1]
        · have := this.2
          simp only [List.length_cons] at this ⊢
          omega

theorem seqFixF_cancel_nf {inv : E → E} (hinv : ∀ x, inv (inv x) = x)
    (neutral : E) :
    ∀ (fuel : ℕ) (l : List E), l.length < fuel →
      seqFixF (cancelClass inv neutral) fuel l = some (nf inv l) := by
  intro fuel
  induction fuel with
  | zero => intro l h; omega
  | succ fuel ih =>
    intro l hlen
    rw [seqFixF]
    match hs : seqStep (cancelClass inv neutral) l with
    | none =>
      have hred := (seqStep_cancel_none_iff neutral l).mp hs
      rw [hred.nf_eq]
    | some next =>
      obtain ⟨hnf, hlen2⟩ := seqStep_cancel_some hinv neutral l next hs
      show seqFixF (cancelClass inv neutral) fuel next = some (nf inv l)
      rw [ih next (by omega), hnf]

/-- C2 counterexample input: the binary rule `(1, 1) → 2` is not compatible
with associativity, and on `[1, 1, 1]` the divide-and-conquer reducer
produces `[1, 2]` (it merges the rightmost pair first) while the sequential
pairwise fixpoint produces `[2, 1]` (it rewrites the leftmost pair first). -/
theorem claim_C2_counterexample :
    mrbF demoBinClass 10 [1, 1, 1] = some [1, 2] ∧
    seqFixF demoBinClass 10 [1, 1, 1] = some [2, 1] ∧
    ([1, 2] : List ℕ) ≠ [2, 1] := by
  refine ⟨?_, ?_, by decide⟩ <;> decide

/-- C2 (amended).  For binary rule tables compatible with associativity —
here the cancellation tables, in which the binary rule fires exactly on an
adjacent pair `(x, inv x)` with `inv` an involution and produces the
neutral element, covering operand lists with adjacent cancelling pairs —
the divide-and-conquer reducer `_match_replace_binary` agrees with the
sequential pairwise fixpoint on every operand list (both compute the fully
cancelled form). -/
theorem claim_C2_binary_reducer_equivalence {F : Type} [DecidableEq F]
    (inv : F → F) (neutral : F) (hinv : ∀ x, inv (inv x) = x) (l : List F) :
    mrbF (cancelClass inv neutral) (l.length + 1) l =
      seqFixF (cancelClass inv neutral) (l.length + 1) l := by
  rw [mrbF_cancel_nf hinv neutral (l.length + 1) l (by omega),
    seqFixF_cancel_nf hinv neutral (l.length + 1) l (by omega)]

/-- Concrete instance of the amended C2: on `Bool` with `inv = not` (an
involution), reducing `[true, false, false, true]` by divide-and-conquer
and by the sequential fixpoint both cancel everything away. -/
theorem claim_C2_witness :
    mrbF (cancelClass Bool.not true) 5 [true, false, false, true] =
      seqFixF (cancelClass Bool.not true) 5 [true, false, false, true] :=
  claim_C2_binary_reducer_equivalence Bool.not true
    (fun x => Bool.not_not x) [true, false, false, true]

/-! ## Part 4: the operator algebra

The expression trees of `operator_algebra.py` /
`abstract_quantum_algebra.py`, restricted to the node kinds the claims
need.  Scalar coefficients (the opaque `Scalar` capability; the
`scalar_algebra` module is not part of the snapshot) are modelled as
integers, and a Hilbert space (the `hilbert_space_algebra` module is not
part of the snapshot either) is modelled as the list of labels of its local
factors, with `TrivialSpace = []` and the product space of an operation's
operands the concatenation of their spaces; only disjointness and the
space's role in the order key matter to the claims. -/

/-- An index range of an indexed sum: an explicit list of values, an
integer range, or the basis of a (local) Hilbert space
(`IndexOverList` / `IndexOverRange` / `IndexOverFockSpace`). -/
inductive IdxRange where
  | overList (idx : ℕ) (values : List ℤ)
  | overRange (idx : ℕ) (startFrom upTo step : ℤ)
  | overFock (idx : ℕ) (hs : List ℕ)
deriving DecidableEq

/-- Operator-algebra expression trees: `OperatorSymbol`, `ZeroOperator`,
`IdentityOperator`, a bare scalar (`ScalarValue`) as it occurs in an
operand list before `scalars_to_op` runs, `ScalarTimesOperator`,
`OperatorPlus`, `OperatorTimes`, `Adjoint`, `Commutator` and
`OperatorIndexedSum`. -/
inductive OpExpr where
  | symbol (id : ℕ) (hs : List ℕ)
  | zeroOp
  | idOp
  | scalarV (c : ℤ)
  | scalarTimes (c : ℤ) (t : OpExpr)
  | plus (ops : List OpExpr)
  | times (ops : List OpExpr)
  | adjointOp (t : OpExpr)
  | commutator (a b : OpExpr)
  | indexedSum (t : OpExpr) (rs : List IdxRange)

/-- Injective code of an integer. -/
def encZ (z : ℤ) : ℕ := Nat.pair z.natAbs (if z < 0 then 1 else 0)

theorem encZ_inj {z w : ℤ} (h : encZ z = encZ w) : z = w := by
  unfold encZ at h
  rw [Nat.pair_eq_pair] at h
  obtain ⟨h1, h2⟩ := h
  by_cases hz : z < 0 <;> by_cases hw : w < 0 <;> simp [hz, hw] at h2 ⊢ <;>
    omega

/-- Injective code of a list of naturals (used for Hilbert spaces). -/
def encNs : List ℕ → ℕ
  | [] => 0
  | n :: rest => Nat.pair n (encNs rest) + 1

theorem encNs_inj : ∀ {l m : List ℕ}, encNs l = encNs m → l = m
  | [], [], _ => rfl
  | [], _ :: _, h => by simp [encNs] at h
  | _ :: _, [], h => by simp [encNs] at h
  | n :: l, n' :: m, h => by
    simp only [encNs, Nat.add_right_cancel_iff, Nat.pair_eq_pair] at h
    rw [h.1, encNs_inj h.2]

/-- Injective code of a list of integers. -/
def encZs : List ℤ → ℕ
  | [] => 0
  | z :: rest => Nat.pair (encZ z) (encZs rest) + 1

theorem encZs_inj : ∀ {l m : List ℤ}, encZs l = encZs m → l = m
  | [], [], _ => rfl
  | [], _ :: _, h => by simp [encZs] at h
  | _ :: _, [], h => by simp [encZs] at h
  | z :: l, z' :: m, h => by
    simp only [encZs, Nat.add_right_cancel_iff, Nat.pair_eq_pair] at h
    rw [encZ_inj h.1, encZs_inj h.2]

/-- Injective code of an index range. -/
def encRange : IdxRange → ℕ
  | .overList i vs => Nat.pair 0 (Nat.pair i (encZs vs))
  | .overRange i a b s =>
    Nat.pair 1 (Nat.pair i (Nat.pair (encZ a) (Nat.pair (encZ b) (encZ s))))
  | .overFock i hs => Nat.pair 2 (Nat.pair i (encNs hs))

theorem encRange_inj : ∀ {r s : IdxRange}, encRange r = encRange s → r = s := by
  intro r s h
  match r, s with
  | .overList i vs, .overList i' vs' =>
    simp only [encRange, Nat.pair_eq_pair] at h
    rw [h.2.1, encZs_inj h.2.2]
  | .overRange i a b st, .overRange i' a' b' st' =>
    simp only [encRange, Nat.pair_eq_pair] at h
    rw [h.2.1, encZ_inj h.2.2.1, encZ_inj h.2.2.2.1, encZ_inj h.2.2.2.2]
  | .overFock i hs, .overFock i' hs' =>
    simp only [encRange, Nat.pair_eq_pair] at h
    rw [h.2.1, encNs_inj h.2.2]
  | .overList _ _, .overRange _ _ _ _ => simp [encRange, Nat.pair_eq_pair] at h
  | .overList _ _, .overFock _ _ => simp [encRange, Nat.pair_eq_pair] at h
  | .overRange _ _ _ _, .overList _ _ => simp [encRange, Nat.pair_eq_pair] at h
  | .overRange _ _ _ _, .overFock _ _ => simp [encRange, Nat.pair_eq_pair] at h
  | .overFock _ _, .overList _ _ => simp [encRange, Nat.pair_eq_pair] at h
  | .overFock _ _, .overRange _ _ _ _ => simp [encRange, Nat.pair_eq_pair] at h

/-- Injective code of a list of index ranges. -/
def encRanges : List IdxRange → ℕ
  | [] => 0
  | r :: rest => Nat.pair (encRange r) (encRanges rest) + 1

theorem encRanges_inj : ∀ {l m : List IdxRange}, encRanges l = encRanges m → l = m
  | [], [], _ => rfl
  | [], _ :: _, h => by simp [encRanges] at h
  | _ :: _, [], h => by simp [encRanges] at h
  | r :: l, r' :: m, h => by
    simp only [encRanges, Nat.add_right_cancel_iff, Nat.pair_eq_pair] at h
    rw [encRange_inj h.1, encRanges_inj h.2]

mutual
/-- Injective structural code of an operator expression (used to decide
equality and as the order key's final tie-break). -/
def enc : OpExpr → ℕ
  | .symbol i hs => Nat.pair 0 (Nat.pair i (encNs hs))
  | .zeroOp => Nat.pair 1 0
  | .idOp => Nat.pair 2 0
  | .scalarV c => Nat.pair 3 (encZ c)
  | .scalarTimes c t => Nat.pair 4 (Nat.pair (encZ c) (enc t))
  | .plus l => Nat.pair 5 (encOps l)
  | .times l => Nat.pair 6 (encOps l)
  | .adjointOp t => Nat.pair 7 (enc t)
  | .commutator a b => Nat.pair 8 (Nat.pair (enc a) (enc b))
  | .indexedSum t rs => Nat.pair 9 (Nat.pair (enc t) (encRanges rs))
/-- Injective code of a list of operator expressions. -/
def encOps : List OpExpr → ℕ
  | [] => 0
  | x :: rest => Nat.pair (enc x) (encOps rest) + 1
end

theorem encOps_inj_of {n : ℕ}
    (ih : ∀ x y : OpExpr, sizeOf x ≤ n → enc x = enc y → x = y) :
    ∀ l m : List OpExpr, (∀ x ∈ l, sizeOf x ≤ n) → encOps l = encOps m →
      l = m
  | [], [], _, _ => rfl
  | [], _ :: _, _, h => by simp [encOps] at h
  | _ :: _, [], _, h => by simp [encOps] at h
  | x :: l, y :: m, hs, h => by
    simp only [encOps, Nat.add_right_cancel_iff, Nat.pair_eq_pair] at h
    rw [ih x y (hs x (List.mem_cons_self x l)) h.1,
      encOps_inj_of ih l m (fun z hz => hs z (List.mem_cons_of_mem x hz)) h.2]

theorem enc_inj_size :
    ∀ (n : ℕ) (x y : OpExpr), sizeOf x ≤ n → enc x = enc y → x = y := by
  intro n
  induction n with
  | zero =>
    intro x y hs _
    exfalso
    cases x <;> simp at hs
  | succ n ih =>
    intro x y hs h
    cases x <;> cases y <;> simp only [enc, Nat.pair_eq_pair] at h <;>
      try exact absurd h.1 (by decide)
    case symbol.symbol => rw [h.2.1, encNs_inj h.2.2]
    case zeroOp.zeroOp => rfl
    case idOp.idOp => rfl
    case scalarV.scalarV => rw [encZ_inj h.2]
    case scalarTimes.scalarTimes c t c' t' =>
      have hst : sizeOf t ≤ n := by
        have : sizeOf (OpExpr.scalarTimes c t) = 1 + sizeOf c + sizeOf t := by simp
        omega
      rw [encZ_inj h.2.1, ih t t' hst h.2.2]
    case plus.plus l m =>
      have hsl : ∀ x ∈ l, sizeOf x ≤ n := by
        intro x hx
        have h1 : sizeOf x < sizeOf l := List.sizeOf_lt_of_mem hx
        have h2 : sizeOf (OpExpr.plus l) = 1 + sizeOf l := by simp
        omega
      rw [encOps_inj_of ih l m hsl h.2]
    case times.times l m =>
      have hsl : ∀ x ∈ l, sizeOf x ≤ n := by
        intro x hx
        have h1 : sizeOf x < sizeOf l := List.sizeOf_lt_of_mem hx
        have h2 : sizeOf (OpExpr.times l) = 1 + sizeOf l := by simp
        omega
      rw [encOps_inj_of ih l m hsl h.2]
    case adjointOp.adjointOp t t' =>
      have hst : sizeOf t ≤ n := by
        have : sizeOf (OpExpr.adjointOp t) = 1 + sizeOf t := by simp
        omega
      rw [ih t t' hst h.2]
    case commutator.commutator a b a' b' =>
      have hsa : sizeOf a ≤ n ∧ sizeOf b ≤ n := by
        have : sizeOf (OpExpr.commutator a b) = 1 + sizeOf a + sizeOf b := by simp
        omega
      rw [ih a a' hsa.1 h.2.1, ih b b' hsa.2 h.2.2]
    case indexedSum.indexedSum t rs t' rs' =>
      have hst : sizeOf t ≤ n := by
        have : sizeOf (OpExpr.indexedSum t rs) = 1 + sizeOf t + sizeOf rs := by simp
        omega
      rw [ih t t' hst h.2.1, encRanges_inj h.2.2]

theorem enc_injective : ∀ x y : OpExpr, enc x = enc y → x = y :=
  fun x y => enc_inj_size (sizeOf x) x y (Nat.le_refl _)

instance : DecidableEq OpExpr := fun a b =>
  decidable_of_iff (enc a = enc b) ⟨enc_injective a b, fun h => h ▸ rfl⟩

mutual
/-- The Hilbert space an expression acts on (`space`): intrinsic for
symbols, trivial for the singletons and scalars, the term's space for a
scalar multiple and an indexed sum, and the product (modelled as the
concatenation) of the operand spaces for operations
(`QuantumOperation.__init__` forms `ProductSpace.create(*op_spaces)`). -/
def space : OpExpr → List ℕ
  | .symbol _ hs => hs
  | .zeroOp => []
  | .idOp => []
  | .scalarV _ => []
  | .scalarTimes _ t => space t
  | .plus l => spaces l
  | .times l => spaces l
  | .adjointOp t => space t
  | .commutator a b => space a ++ space b
  | .indexedSum t _ => space t
/-- Concatenated spaces of a list of operands. -/
def spaces : List OpExpr → List ℕ
  | [] => []
  | x :: rest => space x ++ spaces rest
end

/-- Disjointness of two (modelled) Hilbert spaces: no common local factor
(`HilbertSpace.isdisjoint`). -/
def hsDisjoint (a b : List ℕ) : Bool := a.all fun n => ¬ b.contains n

/-! ### Order keys

Modelled from the spec (§4.1; the `qnet/utils/ordering.py` module is not
part of the snapshot): the order key concatenates (a) the "order group" —
atoms before operations, with the `ZeroOperator`/`IdentityOperator`
singletons in group 2 as in the source's `_order_index` attributes; (b) a
discriminator standing for the class name, numbered in the alphabetical
order of the class names; (c) the magnitude of the scalar prefactor, `1`
for anything but a `ScalarTimesOperator`, whose remaining key components
are those of its term (`ScalarTimesQuantumExpression._order_key`); (d) an
injective structural code in place of the recursive argument keys, so that
structurally equal nodes — and only those — compare equal. -/

/-- The order group (`_order_index`): 0 for atoms, 1 for operations, 2 for
the `ZeroOperator` / `IdentityOperator` singletons; a scalar multiple
sorts with its term. -/
def orderIndex : OpExpr → ℕ
  | .symbol _ _ => 0
  | .scalarV _ => 0
  | .zeroOp => 2
  | .idOp => 2
  | .scalarTimes _ t => orderIndex t
  | .plus _ => 1
  | .times _ => 1
  | .adjointOp _ => 1
  | .commutator _ _ => 1
  | .indexedSum _ _ => 1

/-- The class-name discriminator, numbered alphabetically: `Adjoint`,
`Commutator`, `IdentityOperator`, `OperatorIndexedSum`, `OperatorPlus`,
`OperatorSymbol`, `OperatorTimes`, `ScalarValue`, `ZeroOperator`; a scalar
multiple sorts under its term's name. -/
def nameCode : OpExpr → ℕ
  | .adjointOp _ => 0
  | .commutator _ _ => 1
  | .idOp => 2
  | .indexedSum _ _ => 3
  | .plus _ => 4
  | .symbol _ _ => 5
  | .times _ => 6
  | .scalarV _ => 7
  | .zeroOp => 8
  | .scalarTimes _ t => nameCode t

/-- The scalar-prefactor magnitude (`abs(float(self.coeff))`). -/
def coeffMag : OpExpr → ℕ
  | .scalarTimes c _ => c.natAbs
  | _ => 1

/-- Injective tie-break code standing for the recursive argument keys (and,
for a scalar multiple, for the appended printed coefficient). -/
def tieCode : OpExpr → ℕ
  | .scalarTimes c t => Nat.pair 1 (Nat.pair (enc t) (encZ c))
  | x => Nat.pair 0 (enc x)

/-- The lexicographic order-key type: space code, order group, class name,
coefficient magnitude, tie-break. -/
def KeyT : Type := ℕ ×ₗ (ℕ ×ₗ (ℕ ×ₗ (ℕ ×ₗ ℕ)))

instance : LinearOrder KeyT :=
  inferInstanceAs (LinearOrder (ℕ ×ₗ (ℕ ×ₗ (ℕ ×ₗ (ℕ ×ₗ ℕ)))))

/-- The full commutative order key (`FullCommutativeHSOrder`, modelled from
the spec): group same-space operands together, then compare order keys. -/
def keyF (x : OpExpr) : KeyT :=
  toLex (encNs (space x),
    toLex (orderIndex x, toLex (nameCode x, toLex (coeffMag x, tieCode x))))

theorem tieCode_inj : ∀ x y : OpExpr, tieCode x = tieCode y → x = y := by
  intro x y h
  match x, y with
  | .scalarTimes c t, .scalarTimes c' t' =>
    simp only [tieCode, Nat.pair_eq_pair] at h
    rw [enc_injective t t' h.2.1, encZ_inj h.2.2]
  | .scalarTimes c t, .symbol _ _ | .scalarTimes c t, .zeroOp
  | .scalarTimes c t, .idOp | .scalarTimes c t, .scalarV _
  | .scalarTimes c t, .plus _ | .scalarTimes c t, .times _
  | .scalarTimes c t, .adjointOp _ | .scalarTimes c t, .commutator _ _
  | .scalarTimes c t, .indexedSum _ _ =>
    simp only [tieCode, Nat.pair_eq_pair] at h
    exact absurd h.1 (by decide)
  | .symbol _ _, .scalarTimes c t | .zeroOp, .scalarTimes c t
  | .idOp, .scalarTimes c t | .scalarV _, .scalarTimes c t
  | .plus _, .scalarTimes c t | .times _, .scalarTimes c t
  | .adjointOp _, .scalarTimes c t | .commutator _ _, .scalarTimes c t
  | .indexedSum _ _, .scalarTimes c t =>
    simp only [tieCode, Nat.pair_eq_pair] at h
    exact absurd h.1 (by decide)
  | .symbol _ _, .symbol _ _ | .symbol _ _, .zeroOp | .symbol _ _, .idOp
  | .symbol _ _, .scalarV _ | .symbol _ _, .plus _ | .symbol _ _, .times _
  | .symbol _ _, .adjointOp _ | .symbol _ _, .commutator _ _
  | .symbol _ _, .indexedSum _ _
  | .zeroOp, .symbol _ _ | .zeroOp, .zeroOp | .zeroOp, .idOp
  | .zeroOp, .scalarV _ | .zeroOp, .plus _ | .zeroOp, .times _
  | .zeroOp, .adjointOp _ | .zeroOp, .commutator _ _
  | .zeroOp, .indexedSum _ _
  | .idOp, .symbol _ _ | .idOp, .zeroOp | .idOp, .idOp
  | .idOp, .scalarV _ | .idOp, .plus _ | .idOp, .times _
  | .idOp, .adjointOp _ | .idOp, .commutator _ _ | .idOp, .indexedSum _ _
  | .scalarV _, .symbol _ _ | .scalarV _, .zeroOp | .scalarV _, .idOp
  | .scalarV _, .scalarV _ | .scalarV _, .plus _ | .scalarV _, .times _
  | .scalarV _, .adjointOp _ | .scalarV _, .commutator _ _
  | .scalarV _, .indexedSum _ _
  | .plus _, .symbol _ _ | .plus _, .zeroOp | .plus _, .idOp
  | .plus _, .scalarV _ | .plus _, .plus _ | .plus _, .times _
  | .plus _, .adjointOp _ | .plus _, .commutator _ _
  | .plus _, .indexedSum _ _
  | .times _, .symbol _ _ | .times _, .zeroOp | .times _, .idOp
  | .times _, .scalarV _ | .times _, .plus _ | .times _, .times _
  | .times _, .adjointOp _ | .times _, .commutator _ _
  | .times _, .indexedSum _ _
  | .adjointOp _, .symbol _ _ | .adjointOp _, .zeroOp | .adjointOp _, .idOp
  | .adjointOp _, .scalarV _ | .adjointOp _, .plus _
  | .adjointOp _, .times _ | .adjointOp _, .adjointOp _
  | .adjointOp _, .commutator _ _ | .adjointOp _, .indexedSum _ _
  | .commutator _ _, .symbol _ _ | .commutator _ _, .zeroOp
  | .commutator _ _, .idOp | .commutator _ _, .scalarV _
  | .commutator _ _, .plus _ | .commutator _ _, .times _
  | .commutator _ _, .adjointOp _ | .commutator _ _, .commutator _ _
  | .commutator _ _, .indexedSum _ _
  | .indexedSum _ _, .symbol _ _ | .indexedSum _ _, .zeroOp
  | .indexedSum _ _, .idOp | .indexedSum _ _, .scalarV _
  | .indexedSum _ _, .plus _ | .indexedSum _ _, .times _
  | .indexedSum _ _, .adjointOp _ | .indexedSum _ _, .commutator _ _
  | .indexedSum _ _, .indexedSum _ _ =>
    simp only [tieCode, Nat.pair_eq_pair] at h
    first
    | rfl
    | exact enc_injective _ _ h
    | exact enc_injective _ _ h.2

theorem keyF_inj {x y : OpExpr} (h : keyF x = keyF y) : x = y := by
  unfold keyF at h
  have h' :
      (encNs (space x), (orderIndex x, (nameCode x, (coeffMag x, tieCode x)))) =
        ((encNs (space y), (orderIndex y, (nameCode y, (coeffMag y, tieCode y)))) :
          ℕ × (ℕ × (ℕ × (ℕ × ℕ)))) := by
    exact congrArg (fun k : KeyT => (ofLex k).map id
      (fun p => (ofLex p).map id (fun q => (ofLex q).map id ofLex))) h
  simp only [Prod.mk.injEq, Prod.map] at h'
  exact tieCode_inj x y h'.2.2.2.2

/-- The ≤ relation of the full commutative order (the comparison Python's
stable `sorted` uses for commutative operand lists). -/
def leF (a b : OpExpr) : Prop := keyF a ≤ keyF b

instance : DecidableRel leF := fun a b =>
  inferInstanceAs (Decidable (keyF a ≤ keyF b))

instance : IsTotal OpExpr leF := ⟨fun a b => le_total (keyF a) (keyF b)⟩

instance : IsTrans OpExpr leF := ⟨fun _ _ _ h1 h2 => le_trans h1 h2⟩

instance : IsAntisymm OpExpr leF :=
  ⟨fun _ _ h1 h2 => keyF_inj (le_antisymm h1 h2)⟩

/-! ### Simplification passes and the `create` pipeline

The pipeline driver (`Expression.create` in `abstract_algebra.py`, not part
of the snapshot) is modelled from the spec (§4.4): the passes of the
type's `_simplifications` list run in order on the `(operands, kwargs)`
pair; a pass returning a single value short-circuits the rest and is the
overall result; if all passes return pairs, the constructor is applied to
the final pair.  The individual passes are transcribed from
`algebraic_properties.py`. -/

/-- Outcome of one pass on an operand list (no relevant class here takes
keyword arguments). -/
inductive PassResult where
  | done (e : OpExpr)
  | pair (ops : List OpExpr)
deriving DecidableEq

/-- Transcription of `assoc` for `OperatorPlus`: expand, one level deep,
every operand that is itself an instance of the class. -/
def assocPlus (ops : List OpExpr) : List OpExpr :=
  ops.flatMap fun o => match o with | .plus l => l | o => [o]

/-- Transcription of `assoc` for `OperatorTimes`. -/
def assocTimes (ops : List OpExpr) : List OpExpr :=
  ops.flatMap fun o => match o with | .times l => l | o => [o]

/-- Transcription of `scalars_to_op`: replace every bare scalar `α` among
the operands by `ScalarTimesOperator.create(α, IdentityOperator)` (whose
rule table is empty in the snapshot, so `create` is the constructor). -/
def scalarsToOp (ops : List OpExpr) : List OpExpr :=
  ops.map fun o => match o with | .scalarV c => .scalarTimes c .idOp | o => o

/-- Transcription of `filter_neutral`: remove the operands equal to the
neutral element; an empty operand list yields the neutral element, a
single surviving operand is returned unwrapped, and if everything was
neutral the first original operand is returned. -/
def filter_neutral (neutral : OpExpr) (ops : List OpExpr) : PassResult :=
  match ops with
  | [] => .done neutral
  | o₀ :: rest =>
    let fops := (o₀ :: rest).filter fun op => decide (neutral ≠ op)
    if 1 < fops.length then .pair fops
    else
      match fops with
      | [x] => .done x
      | _ => .done o₀

/-- `OperatorPlus` as seen by the binary reducer: its `_binary_rules` table
is empty in the snapshot (`_binary_rules = OrderedDict()`), its neutral
element is `ZeroOperator`. -/
def plusBinClass : BinOpClass OpExpr :=
  ⟨fun _ _ => none, .zeroOp,
   fun o => match o with | .plus _ => true | _ => false,
   fun o => match o with | .plus l => l | _ => []⟩

/-- `OperatorTimes` for the binary reducer: empty `_binary_rules`, neutral
element `IdentityOperator`. -/
def timesBinClass : BinOpClass OpExpr :=
  ⟨fun _ _ => none, .idOp,
   fun o => match o with | .times _ => true | _ => false,
   fun o => match o with | .times l => l | _ => []⟩

/-- The `match_replace_binary` pass over a concrete class (fuel covering
the whole list, as `mrbF_no_rules` below shows suffices for the empty rule
tables of the snapshot). -/
def mrbPass (c : BinOpClass OpExpr) (ops : List OpExpr) : PassResult :=
  match mrbF c (ops.length + 1) ops with
  | some fops =>
    match fops with
    | [x] => .done x
    | [] => .done c.neutral
    | _ => .pair fops
  | none => .pair ops

/-- Modelled from the spec: `OperatorPlus.create`, running the class's
`_simplifications` pipeline `[assoc, scalars_to_op, orderby,
filter_neutral, match_replace_binary]` and, when no pass short-circuits,
the constructor. -/
def createPlus (ops : List OpExpr) : OpExpr :=
  match filter_neutral .zeroOp
      (List.insertionSort leF (scalarsToOp (assocPlus ops))) with
  | .done e => e
  | .pair fops =>
    match mrbPass plusBinClass fops with
    | .done e => e
    | .pair l => .plus l

theorem combineF_no_rules (c : BinOpClass OpExpr)
    (h : ∀ a b, c.binReplace a b = none) (fuel : ℕ) (a b : List OpExpr) :
    combineF c (fuel + 1) a b = some (a ++ b) := by
  match hma : a.getLast?, hmb : b.head? with
  | some la, some hb => exact combineF_no_rule c fuel a b la hb hma hmb (h la hb)
  | some la, none => simp [combineF, hma, hmb]
  | none, _ => simp [combineF, hma]

theorem mrbF_no_rules (c : BinOpClass OpExpr)
    (h : ∀ a b, c.binReplace a b = none) :
    ∀ (fuel : ℕ) (l : List OpExpr), l.length < fuel → mrbF c fuel l = some l := by
  intro fuel
  induction fuel with
  | zero => intro l hl; omega
  | succ fuel ih =>
    intro l hl
    by_cases hle : l.length ≤ 1
    · rw [mrbF, if_pos hle]
    · rw [mrbF, if_neg hle]
      have htake : (l.take (l.length / 2)).length < fuel := by
        simp only [List.length_take]; omega
      have hdrop : (l.drop (l.length / 2)).length < fuel := by
        simp only [List.length_drop]; omega
      rw [ih _ htake, ih _ hdrop]
      show combineF c fuel (l.take (l.length / 2)) (l.drop (l.length / 2)) =
        some l
      match fuel, htake with
      | fuel + 1, _ =>
        rw [combineF_no_rules c h fuel _ _, List.take_append_drop]

theorem mrbPass_no_rules (c : BinOpClass OpExpr)
    (h : ∀ a b, c.binReplace a b = none) (ops : List OpExpr)
    (hlen : 2 ≤ ops.length) : mrbPass c ops = .pair ops := by
  rw [mrbPass, mrbF_no_rules c h (ops.length + 1) ops (by omega)]
  match ops, hlen with
  | x :: y :: rest, _ => rfl

/-! ### Idempotence of the `OperatorPlus` pipeline (C4) -/

/-- Whether a node is an `OperatorPlus` instance. -/
def isPlusB : OpExpr → Bool
  | .plus _ => true
  | _ => false

/-- Whether a node is a bare scalar. -/
def isScalarVB : OpExpr → Bool
  | .scalarV _ => true
  | _ => false

/-- The lifecycle invariant of the spec's data model ("nodes are created
exclusively through the pipeline's canonical constructor path"), as far as
the `OperatorPlus` pipeline observes it: no operand is a sum whose own
operands contain a further nested sum. -/
def flatForPlus (ops : List OpExpr) : Bool :=
  ops.all fun o =>
    match o with
    | .plus l => l.all fun o' => !isPlusB o'
    | _ => true

theorem assocPlus_mem_not_plus {ops : List OpExpr}
    (h : flatForPlus ops = true) :
    ∀ o ∈ assocPlus ops, isPlusB o = false := by
  intro o ho
  rw [assocPlus, List.mem_flatMap] at ho
  obtain ⟨a, ha, hoa⟩ := ho
  rw [flatForPlus, List.all_eq_true] at h
  have := h a ha
  match a, this with
  | .plus l, hl =>
    rw [List.all_eq_true] at hl
    have := hl o hoa
    simpa using this
  | .symbol _ _, _ | .zeroOp, _ | .idOp, _ | .scalarV _, _
  | .scalarTimes _ _, _ | .times _, _ | .adjointOp _, _
  | .commutator _ _, _ | .indexedSum _ _, _ =>
    rw [List.mem_singleton] at hoa
    subst hoa
    rfl

theorem assocPlus_eq_self {ops : List OpExpr}
    (h : ∀ o ∈ ops, isPlusB o = false) : assocPlus ops = ops := by
  induction ops with
  | nil => rfl
  | cons o rest ih =>
    have ho := h o (List.mem_cons_self o rest)
    have hrest := ih fun o' ho' => h o' (List.mem_cons_of_mem o ho')
    match o, ho with
    | .symbol _ _, _ | .zeroOp, _ | .idOp, _ | .scalarV _, _
    | .scalarTimes _ _, _ | .times _, _ | .adjointOp _, _
    | .commutator _ _, _ | .indexedSum _ _, _ =>
      simpa [assocPlus] using hrest

theorem scalarsToOp_eq_self {ops : List OpExpr}
    (h : ∀ o ∈ ops, isScalarVB o = false) : scalarsToOp ops = ops := by
  induction ops with
  | nil => rfl
  | cons o rest ih =>
    have ho := h o (List.mem_cons_self o rest)
    have hrest := ih fun o' ho' => h o' (List.mem_cons_of_mem o ho')
    match o, ho with
    | .symbol _ _, _ | .zeroOp, _ | .idOp, _ | .scalarTimes _ _, _
    | .plus _, _ | .times _, _ | .adjointOp _, _
    | .commutator _ _, _ | .indexedSum _ _, _ =>
      simpa [scalarsToOp] using hrest

theorem scalarsToOp_mem {ops : List OpExpr} {o : OpExpr}
    (ho : o ∈ scalarsToOp ops) :
    isScalarVB o = false ∧
      (isPlusB o = true → ∃ a ∈ ops, a = o) := by
  rw [scalarsToOp, List.mem_map] at ho
  obtain ⟨a, ha, hao⟩ := ho
  match a, hao with
  | .scalarV c, rfl => exact ⟨rfl, by intro h; simp [isPlusB] at h⟩
  | .symbol _ _, rfl | .zeroOp, rfl | .idOp, rfl | .scalarTimes _ _, rfl
  | .plus _, rfl | .times _, rfl | .adjointOp _, rfl
  | .commutator _ _, rfl | .indexedSum _ _, rfl =>
    exact ⟨rfl, fun _ => ⟨_, ha, rfl⟩⟩

theorem filter_neutral_pair {neutral : OpExpr} {ops fops : List OpExpr}
    (h : filter_neutral neutral ops = .pair fops) :
    fops = ops.filter (fun op => decide (neutral ≠ op)) ∧ 1 < fops.length := by
  match ops with
  | [] => simp [filter_neutral] at h
  | o₀ :: rest =>
    rw [filter_neutral] at h
    by_cases hlen :
        1 < ((o₀ :: rest).filter fun op => decide (neutral ≠ op)).length
    · rw [if_pos hlen] at h
      cases h
      exact ⟨rfl, hlen⟩
    · rw [if_neg hlen] at h
      exfalso
      match hf : (o₀ :: rest).filter fun op => decide (neutral ≠ op), hlen with
      | [], _ => rw [hf] at h; simp at h
      | [x], _ => rw [hf] at h; simp at h
      | x :: y :: l, hlen => simp at hlen

theorem filter_neutral_done {neutral : OpExpr} {ops : List OpExpr}
    {e : OpExpr} (h : filter_neutral neutral ops = .done e) :
    e = neutral ∨ e ∈ ops := by
  match ops with
  | [] =>
    rw [filter_neutral] at h
    cases h
    exact Or.inl rfl
  | o₀ :: rest =>
    rw [filter_neutral] at h
    by_cases hlen :
        1 < ((o₀ :: rest).filter fun op => decide (neutral ≠ op)).length
    · rw [if_pos hlen] at h
      simp at h
    · rw [if_neg hlen] at h
      match hf : (o₀ :: rest).filter fun op => decide (neutral ≠ op) with
      | [x] =>
        rw [hf] at h
        cases h
        have : e ∈ (o₀ :: rest).filter fun op => decide (neutral ≠ op) := by
          rw [hf]; exact List.mem_singleton.mpr rfl
        exact Or.inr (List.mem_of_mem_filter this)
      | [] =>
        rw [hf] at h
        cases h
        exact Or.inr (List.mem_cons_self _ _)
      | x :: y :: l =>
        rw [hf] at hlen
        simp at hlen

/-- C4 counterexample input: the raw operand `OperatorPlus(OperatorPlus(a,
b), c)` (a doubly nested sum, never produced by `create` itself but a
legal constructor argument).  `create` flattens only one level, so the
resulting node's own arguments flatten further on re-creation, and
`T.create(*x.args) ≠ x`. -/
theorem claim_C4_counterexample :
    createPlus [.plus [.plus [.symbol 0 [0], .symbol 1 [0]], .symbol 2 [0]]] =
      .plus [.symbol 2 [0], .plus [.symbol 0 [0], .symbol 1 [0]]] ∧
    createPlus [.symbol 2 [0], .plus [.symbol 0 [0], .symbol 1 [0]]] ≠
      .plus [.symbol 2 [0], .plus [.symbol 0 [0], .symbol 1 [0]]] := by
  constructor <;> decide

/-- C4 (amended).  For operand lists respecting the spec's lifecycle
invariant (no doubly nested sums, which `create`-produced operands never
are), the `OperatorPlus` pipeline `[assoc, scalars_to_op, orderby,
filter_neutral, match_replace_binary]` is idempotent: whenever
`OperatorPlus.create(ops)` builds a sum node, re-running `create` on that
node's own arguments returns the same node. -/
theorem claim_C4_create_idempotent (ops l : List OpExpr)
    (hflat : flatForPlus ops = true) (h : createPlus ops = .plus l) :
    createPlus l = .plus l := by
  rw [createPlus] at h
  set s3 := List.insertionSort leF (scalarsToOp (assocPlus ops)) with hs3
  have hmem : ∀ o ∈ s3, isPlusB o = false ∧ isScalarVB o = false := by
    intro o ho
    rw [hs3, List.mem_insertionSort] at ho
    obtain ⟨hsc, hpl⟩ := scalarsToOp_mem ho
    refine ⟨?_, hsc⟩
    by_cases hp : isPlusB o = true
    · obtain ⟨a, ha, rfl⟩ := hpl hp
      exact absurd (assocPlus_mem_not_plus hflat a ha) (by simp [hp])
    · simpa using hp
  match hfn : filter_neutral .zeroOp s3 with
  | .done e =>
    rw [hfn] at h
    subst h
    rcases filter_neutral_done hfn with he | he
    · cases he
    · exact absurd (hmem _ he).1 (by simp [isPlusB])
  | .pair fops =>
    rw [hfn] at h
    obtain ⟨hfe, hflen⟩ := filter_neutral_pair hfn
    replace h : (match mrbPass plusBinClass fops with
      | PassResult.done e => e
      | PassResult.pair l => OpExpr.plus l) = OpExpr.plus l := h
    rw [mrbPass_no_rules plusBinClass (fun _ _ => rfl) fops (by omega)] at h
    replace h : OpExpr.plus fops = OpExpr.plus l := h
    cases h
    have hfmem : ∀ o ∈ l, o ∈ s3 := by
      intro o ho
      rw [hfe] at ho
      exact List.mem_of_mem_filter ho
    have hassoc : assocPlus l = l :=
      assocPlus_eq_self fun o ho => (hmem o (hfmem o ho)).1
    have hscal : scalarsToOp l = l :=
      scalarsToOp_eq_self fun o ho => (hmem o (hfmem o ho)).2
    have hsorted : List.Sorted leF l := by
      rw [hfe]
      exact List.Pairwise.filter _ (List.sorted_insertionSort leF _)
    have hfilter : (l.filter fun op => decide (OpExpr.zeroOp ≠ op)) = l := by
      rw [List.filter_eq_self]
      intro a ha
      rw [hfe, List.mem_filter] at ha
      exact ha.2
    rw [createPlus, hassoc, hscal, hsorted.insertionSort_eq]
    match hl : l, hflen with
    | o₀ :: o₁ :: rest, _ =>
      rw [filter_neutral, hfilter, if_pos (by simp)]
      show (match mrbPass plusBinClass (o₀ :: o₁ :: rest) with
        | PassResult.done e => e
        | PassResult.pair m => OpExpr.plus m) =
          OpExpr.plus (o₀ :: o₁ :: rest)
      rw [mrbPass_no_rules plusBinClass (fun _ _ => rfl) _ (by simp)]

/-! ### `OperatorTimes.create` and the adjoint (C5)

`OperatorTimes` sorts with `DisjunctCommutativeHSOrder` (module not in the
snapshot; modelled from the spec §4.1): operands on disjoint Hilbert
spaces commute and are compared by their keys, operands sharing a space
must keep their relative order, so the stable sort's "may stay before"
relation `leD a b` is "`b` is not disjointly-less than `a`". -/

/-- `DisjunctCommutativeHSOrder.__lt__`, modelled from the spec: strictly
smaller only when the spaces are disjoint (the operands commute) and the
key is smaller. -/
def ltD (a b : OpExpr) : Prop :=
  hsDisjoint (space a) (space b) = true ∧ keyF a < keyF b

instance : DecidableRel ltD := fun a b =>
  inferInstanceAs (Decidable (_ ∧ _))

/-- The non-strict comparison a stable sort derives from `ltD`. -/
def leD (a b : OpExpr) : Prop := ¬ ltD b a

instance : DecidableRel leD := fun a b =>
  inferInstanceAs (Decidable (¬ _))

/-- Modelled from the spec: `OperatorTimes.create`, running the pipeline
`[assoc, orderby, filter_neutral, match_replace_binary]` (with the
snapshot's empty `_binary_rules`) and, when no pass short-circuits, the
constructor. -/
def createTimes (ops : List OpExpr) : OpExpr :=
  match filter_neutral .idOp (List.insertionSort leD (assocTimes ops)) with
  | .done e => e
  | .pair fops =>
    match mrbPass timesBinClass fops with
    | .done e => e
    | .pair l => .times l

mutual
/-- The adjoint method dispatch (`x.adjoint()` calls `x._adjoint()`):
a symbol wraps itself in the `Adjoint` class
(`QuantumSymbol._adjoint = self._adjoint_cls(self)`); the singletons are
self-adjoint; a scalar multiple conjugates the coefficient (identity on
the modelled real scalars) and takes the term's adjoint
(`ScalarTimesOperator._adjoint`, a direct constructor); a sum maps the
adjoint over its operands with a direct constructor
(`QuantumPlus._adjoint`); a product rebuilds through `create` from the
reversed operand adjoints (`QuantumTimes._adjoint`); an `Adjoint` node
returns its operand (`QuantumAdjoint._adjoint`); a commutator swaps its
adjointed operands (`Commutator._adjoint`, direct constructor); an indexed
sum takes the adjoint of its term over the same ranges. -/
def dagModel : OpExpr → OpExpr
  | .symbol i hs => .adjointOp (.symbol i hs)
  | .zeroOp => .zeroOp
  | .idOp => .idOp
  | .scalarV c => .scalarV c
  | .scalarTimes c t => .scalarTimes c (dagModel t)
  | .plus l => .plus (dagList l)
  | .times l => createTimes (dagList l).reverse
  | .adjointOp t => t
  | .commutator a b => .commutator (dagModel b) (dagModel a)
  | .indexedSum t rs => .indexedSum (dagModel t) rs
/-- Adjoints of a list of operands, in order. -/
def dagList : List OpExpr → List OpExpr
  | [] => []
  | x :: rest => dagModel x :: dagList rest
end

/-- `QuantumExpression.__mul__` restricted to the cases the claims use:
a scalar factor builds a `ScalarTimesOperator`
(`_scalar_times_expr_cls.create`, the constructor since the snapshot's
rule table is empty), two members of the algebra multiply through
`OperatorTimes.create`. -/
def mulModel : OpExpr → OpExpr → OpExpr
  | .scalarV c, .scalarV d => .scalarV (c * d)
  | .scalarV c, y => .scalarTimes c y
  | x, .scalarV c => .scalarTimes c x
  | x, y => createTimes [x, y]

theorem hsDisjoint_true_iff (a b : List ℕ) :
    hsDisjoint a b = true ↔ ∀ n ∈ a, n ∉ b := by
  simp [hsDisjoint]

theorem hsDisjoint_comm (a b : List ℕ) : hsDisjoint a b = hsDisjoint b a := by
  by_cases h1 : hsDisjoint a b = true
  · have h2 : hsDisjoint b a = true := by
      rw [hsDisjoint_true_iff] at h1 ⊢
      intro n hn hna
      exact h1 n hna hn
    rw [h1, h2]
  · have h2 : ¬ hsDisjoint b a = true := by
      intro h2
      rw [hsDisjoint_true_iff] at h2
      apply h1
      rw [hsDisjoint_true_iff]
      intro n hn hnb
      exact h2 n hnb hn
    rw [Bool.not_eq_true] at h1 h2
    rw [h1, h2]

theorem sortD_pair (x y : OpExpr) :
    List.insertionSort leD [x, y] = if leD x y then [x, y] else [y, x] := by
  by_cases h : leD x y <;> simp [List.insertionSort, List.orderedInsert, h]

/-- Atoms the two-operand `OperatorTimes.create` computation below applies
to: not a `times` instance (so `assoc` keeps them) and not the neutral
element (so `filter_neutral` keeps them). -/
def goodAtom : OpExpr → Bool
  | .times _ => false
  | .idOp => false
  | _ => true

theorem assocTimes_single {z : OpExpr} (hz : goodAtom z = true) :
    assocTimes [z] = [z] := by
  match z, hz with
  | .symbol _ _, _ | .zeroOp, _ | .scalarV _, _ | .scalarTimes _ _, _
  | .plus _, _ | .adjointOp _, _ | .commutator _ _, _
  | .indexedSum _ _, _ => rfl

theorem assocTimes_pair {x y : OpExpr} (hx : goodAtom x = true)
    (hy : goodAtom y = true) : assocTimes [x, y] = [x, y] := by
  have h1 := assocTimes_single hx
  have h2 := assocTimes_single hy
  simp only [assocTimes] at h1 h2 ⊢
  rw [show ([x, y] : List OpExpr) = [x] ++ [y] from rfl,
    List.flatMap_append, h1, h2]

theorem goodAtom_ne_idOp {x : OpExpr} (hx : goodAtom x = true) :
    OpExpr.idOp ≠ x := by
  intro h
  rw [← h] at hx
  simp [goodAtom] at hx

theorem createTimes_pair {x y : OpExpr} (hx : goodAtom x = true)
    (hy : goodAtom y = true) :
    createTimes [x, y] =
      if leD x y then .times [x, y] else .times [y, x] := by
  have hfx : (decide (OpExpr.idOp ≠ x)) = true := by
    simp [goodAtom_ne_idOp hx]
  have hfy : (decide (OpExpr.idOp ≠ y)) = true := by
    simp [goodAtom_ne_idOp hy]
  rw [createTimes, assocTimes_pair hx hy, sortD_pair]
  by_cases hxy : leD x y
  · rw [if_pos hxy, if_pos hxy]
    rw [filter_neutral]
    simp only [List.filter, hfx, hfy]
    rw [if_pos (by simp)]
    show (match mrbPass timesBinClass [x, y] with
      | PassResult.done e => e
      | PassResult.pair l => OpExpr.times l) = OpExpr.times [x, y]
    rw [mrbPass_no_rules timesBinClass (fun _ _ => rfl) [x, y] (by simp)]
  · rw [if_neg hxy, if_neg hxy]
    rw [filter_neutral]
    simp only [List.filter, hfx, hfy]
    rw [if_pos (by simp)]
    show (match mrbPass timesBinClass [y, x] with
      | PassResult.done e => e
      | PassResult.pair l => OpExpr.times l) = OpExpr.times [y, x]
    rw [mrbPass_no_rules timesBinClass (fun _ _ => rfl) [y, x] (by simp)]

theorem dagList_eq_map (l : List OpExpr) : dagList l = l.map dagModel := by
  induction l with
  | nil => rfl
  | cons x xs ih => rw [dagList, ih, List.map_cons]

/-- C5 counterexample input: for composite operands on overlapping but
unequal Hilbert spaces, the stable disjoint-space ordering of
`OperatorTimes.create` is path-dependent (the comparison is not
transitive: an operand overlapping two mutually disjoint operands blocks
their reordering), so `(A*B).adjoint()` and `B.adjoint() * A.adjoint()`
can canonicalize the same factors in different orders.  Here
`A = OperatorSymbol(0, hs={0})` and
`B = OperatorTimes(OperatorSymbol(4, hs={0,1}), OperatorSymbol(5, hs={2}))`. -/
theorem claim_C5_counterexample :
    dagModel (mulModel (.symbol 0 [0])
        (.times [.symbol 4 [0, 1], .symbol 5 [2]])) ≠
      mulModel (dagModel (.times [.symbol 4 [0, 1], .symbol 5 [2]]))
        (dagModel (.symbol 0 [0])) := by
  decide

/-- C5 (amended).  The adjoint is an involution on symbols
(`x.adjoint().adjoint() == x`); the adjoint of a sum is the sum of the
operands' adjoints; and the adjoint anti-distributes over products of
operator symbols: `(A*B).adjoint() == B.adjoint() * A.adjoint()` — the
adjoint of the product is the product of the adjoints in reversed order.
(For composite operands on overlapping spaces the last equation can fail
at the node level, see the counterexample.) -/
theorem claim_C5_adjoint :
    (∀ (i : ℕ) (hs : List ℕ),
      dagModel (dagModel (.symbol i hs)) = .symbol i hs) ∧
    (∀ l : List OpExpr, dagModel (.plus l) = .plus (l.map dagModel)) ∧
    (∀ (i : ℕ) (hs : List ℕ) (j : ℕ) (hs' : List ℕ),
      dagModel (mulModel (.symbol i hs) (.symbol j hs')) =
        mulModel (dagModel (.symbol j hs')) (dagModel (.symbol i hs))) := by
  refine ⟨fun i hs => rfl, fun l => by rw [dagModel, dagList_eq_map], ?_⟩
  intro i hs j hs'
  set A : OpExpr := .symbol i hs with hA
  set B : OpExpr := .symbol j hs' with hB
  have hgA : goodAtom A = true := by rw [hA]; rfl
  have hgB : goodAtom B = true := by rw [hB]; rfl
  have hgA' : goodAtom (OpExpr.adjointOp A) = true := rfl
  have hgB' : goodAtom (OpExpr.adjointOp B) = true := rfl
  have hmul : mulModel A B = createTimes [A, B] := by rw [hA, hB]; rfl
  have hmul' : mulModel (dagModel B) (dagModel A) =
      createTimes [.adjointOp B, .adjointOp A] := by rw [hA, hB]; rfl
  rw [hmul, hmul', createTimes_pair hgA hgB]
  by_cases hAB : leD A B
  · rw [if_pos hAB]
    have hdag : dagModel (OpExpr.times [A, B]) =
        createTimes [.adjointOp B, .adjointOp A] := by
      rw [hA, hB]; rfl
    rw [hdag]
  · rw [if_neg hAB]
    have hdag : dagModel (OpExpr.times [B, A]) =
        createTimes [.adjointOp A, .adjointOp B] := by
      rw [hA, hB]; rfl
    rw [hdag]
    have hd : hsDisjoint (space B) (space A) = true ∧ keyF B < keyF A := by
      have h' := hAB
      unfold leD at h'
      rw [not_not] at h'
      exact h'
    rw [createTimes_pair hgA' hgB', createTimes_pair hgB' hgA']
    have hspA : space (OpExpr.adjointOp A) = space A := rfl
    have hspB : space (OpExpr.adjointOp B) = space B := rfl
    have hdisj : hsDisjoint (space (OpExpr.adjointOp B))
        (space (OpExpr.adjointOp A)) = true := by
      rw [hspA, hspB]; exact hd.1
    have hdisj' : hsDisjoint (space (OpExpr.adjointOp A))
        (space (OpExpr.adjointOp B)) = true := by
      rw [hspA, hspB, hsDisjoint_comm]; exact hd.1
    rcases lt_trichotomy (keyF (OpExpr.adjointOp A))
        (keyF (OpExpr.adjointOp B)) with hk | hk | hk
    · have h1 : leD (OpExpr.adjointOp A) (OpExpr.adjointOp B) :=
        fun hcon => absurd (lt_trans hk hcon.2) (lt_irrefl _)
      have h2 : ¬ leD (OpExpr.adjointOp B) (OpExpr.adjointOp A) :=
        not_not.mpr ⟨hdisj', hk⟩
      rw [if_pos h1, if_neg h2]
    · have heq : OpExpr.adjointOp A = OpExpr.adjointOp B := keyF_inj hk
      rw [heq]
    · have h1 : ¬ leD (OpExpr.adjointOp A) (OpExpr.adjointOp B) :=
        not_not.mpr ⟨hdisj, hk⟩
      have h2 : leD (OpExpr.adjointOp B) (OpExpr.adjointOp A) :=
        fun hcon => absurd (lt_trans hk hcon.2) (lt_irrefl _)
      rw [if_neg h1, if_pos h2]

/-! ### `is_zero` (C9), indexed-sum addition (C7), `Commutator.create` (C10) -/

/-- Transcription of `QuantumExpression.is_zero`: whether the expression
equals the neutral element for addition within its algebra (`self ==
self._zero`; for operators `_zero = ZeroOperator`, and `Expression`
equality is structural). -/
def is_zero (x : OpExpr) : Bool := decide (x = OpExpr.zeroOp)

/-- Python equality between an expression and a bare scalar number:
`ScalarTimesOperator.__eq__` compares its coefficient when its term is the
identity; a `ScalarValue` compares its value; every other comparison of an
expression with a number is `False` (structural equality). -/
def eqNum : OpExpr → ℤ → Bool
  | .scalarV c, n => decide (c = n)
  | .scalarTimes c .idOp, n => decide (c = n)
  | _, _ => false

/-- C9.  `x.is_zero` holds exactly when `x` equals the addition-neutral
element of its algebra (`x == x._zero`); in particular
`ZeroOperator.is_zero` is `True`, while this does not imply equality with
the scalar zero: `ZeroOperator == 0` is `False`. -/
theorem claim_C9_is_zero :
    (∀ x : OpExpr, is_zero x = true ↔ x = OpExpr.zeroOp) ∧
    is_zero OpExpr.zeroOp = true ∧
    eqNum OpExpr.zeroOp 0 = false :=
  ⟨fun x => by simp [is_zero], rfl, rfl⟩

/-- Python-level errors the embedding distinguishes. -/
inductive PyErr where
  | notImplemented
  | typeError
  | assertionFailed
deriving DecidableEq

/-- `QuantumExpression.__add__`: a bare scalar addend is first lifted to a
multiple of the identity (`self._one * other`), then the sum is built with
`OperatorPlus.create`; `QuantumIndexedSum.__add__` overrides this and
raises `NotImplementedError`. -/
def qAdd (x y : OpExpr) : Except PyErr OpExpr :=
  match x with
  | .indexedSum _ _ => .error .notImplemented
  | _ =>
    .ok (createPlus [x,
      match y with
      | .scalarV c => .scalarTimes c .idOp
      | y => y])

/-- `QuantumExpression.__sub__` (`self + (-1) * other`);
`QuantumIndexedSum.__sub__` overrides it and raises
`NotImplementedError`. -/
def qSub (x y : OpExpr) : Except PyErr OpExpr :=
  match x with
  | .indexedSum _ _ => .error .notImplemented
  | _ => qAdd x (mulModel (.scalarV (-1)) y)

/-- C7.  Addition and subtraction between two indexed sums always raise
(`NotImplementedError` from `QuantumIndexedSum.__add__` / `__radd__` /
`__sub__` / `__rsub__`); they never return a merged sum or any other
value. -/
theorem claim_C7_indexed_sum_add_raises :
    ∀ (t1 t2 : OpExpr) (r1 r2 : List IdxRange),
      qAdd (.indexedSum t1 r1) (.indexedSum t2 r2) =
        .error .notImplemented ∧
      qAdd (.indexedSum t2 r2) (.indexedSum t1 r1) =
        .error .notImplemented ∧
      qSub (.indexedSum t1 r1) (.indexedSum t2 r2) =
        .error .notImplemented ∧
      qSub (.indexedSum t2 r2) (.indexedSum t1 r1) =
        .error .notImplemented :=
  fun _ _ _ _ => ⟨rfl, rfl, rfl, rfl⟩

/-- `scalars_to_op` on a single operand. -/
def s2oE : OpExpr → OpExpr
  | .scalarV c => .scalarTimes c .idOp
  | o => o

theorem s2oE_s2oE (o : OpExpr) : s2oE (s2oE o) = s2oE o := by
  match o with
  | .scalarV _ => rfl
  | .symbol _ _ | .zeroOp | .idOp | .scalarTimes _ _ | .plus _ | .times _
  | .adjointOp _ | .commutator _ _ | .indexedSum _ _ => rfl

/-- Modelled from the spec: `Commutator.create`, running the pipeline
`[scalars_to_op, disjunct_hs_zero, commutator_order, match_replace]`
transcribed from `algebraic_properties.py` (`disjunct_hs_zero` returns
`ZeroOperator` when the operands' spaces are disjoint; `commutator_order`
returns `-1 * Commutator.create(B, A)` — a `ScalarTimesOperator` — when
the second operand's `order_key` precedes the first's; the snapshot's
`Commutator._rules` table is empty, so `match_replace` is a no-op and the
constructor is reached). -/
def createCommutator (A B : OpExpr) : OpExpr :=
  if hsDisjoint (space (s2oE A)) (space (s2oE B)) = true then .zeroOp
  else if keyF (s2oE B) < keyF (s2oE A) then
    .scalarTimes (-1) (createCommutator (s2oE B) (s2oE A))
  else .commutator (s2oE A) (s2oE B)
termination_by (if keyF (s2oE B) < keyF (s2oE A) then 1 else 0)
decreasing_by
  rename_i hswap
  rw [s2oE_s2oE, s2oE_s2oE, if_pos hswap,
    if_neg (fun hcon => absurd (lt_trans hswap hcon) (lt_irrefl _))]
  omega

theorem s2oE_not_scalarV {x : OpExpr} (h : isScalarVB x = false) :
    s2oE x = x := by
  match x, h with
  | .symbol _ _, _ | .zeroOp, _ | .idOp, _ | .scalarTimes _ _, _
  | .plus _, _ | .times _, _ | .adjointOp _, _ | .commutator _ _, _
  | .indexedSum _ _, _ => rfl

/-- C10.  For operators `A`, `B` on non-disjoint Hilbert spaces (with the
snapshot's empty rewrite-rule table), if `B` precedes `A` under the
class's order key then `Commutator.create(A, B)` returns
`-1 * Commutator.create(B, A)`; consequently every `Commutator` node built
by `create` has its first operand not after its second in the order-key
ordering. -/
theorem claim_C10_commutator_order (A B : OpExpr)
    (hA : isScalarVB A = false) (hB : isScalarVB B = false)
    (hdisj : hsDisjoint (space A) (space B) = false) :
    (keyF B < keyF A →
      createCommutator A B = .scalarTimes (-1) (createCommutator B A)) ∧
    (∀ X Y, createCommutator A B = .commutator X Y → ¬ keyF Y < keyF X) := by
  have hsA := s2oE_not_scalarV hA
  have hsB := s2oE_not_scalarV hB
  constructor
  · intro hk
    rw [createCommutator, hsA, hsB, hdisj]
    simp only [Bool.false_eq_true, if_false]
    rw [if_pos hk]
  · intro X Y h
    rw [createCommutator, hsA, hsB, hdisj] at h
    simp only [Bool.false_eq_true, if_false] at h
    by_cases hk : keyF B < keyF A
    · rw [if_pos hk] at h
      exact absurd h (by simp)
    · rw [if_neg hk] at h
      obtain ⟨rfl, rfl⟩ : A = X ∧ B = Y := by
        constructor <;> injection h <;> assumption
      exact hk

/-- Concrete instance of C10: on the same Hilbert space, with the second
symbol's key preceding the first's, the commutator construction flips the
operands and prefixes `-1`. -/
theorem claim_C10_witness :
    createCommutator (.symbol 1 [0]) (.symbol 0 [0]) =
      .scalarTimes (-1) (createCommutator (.symbol 0 [0]) (.symbol 1 [0])) :=
  (claim_C10_commutator_order (.symbol 1 [0]) (.symbol 0 [0]) (by decide)
    (by decide) (by decide)).1 (by decide)

/-! ### The `Sum` instantiator (C8) -/

/-- The shapes a positional argument of `Sum` can have: a `LocalSpace`
(modelled by its label), a list, a tuple, an integer, or something else
(represented by a string argument). -/
inductive SumArg where
  | hsA (h : ℕ)
  | listA (vs : List ℤ)
  | tupleA (vs : List ℤ)
  | intA (n : ℤ)
  | strA (s : String)
deriving DecidableEq

/-- The keyword arguments `Sum` forwards to the range builders. -/
structure SumKwargs where
  hs : Option ℕ
  upTo : Option ℤ
  step : Option ℤ
deriving DecidableEq

/-- `type(arg)` as the dispatch table sees it. -/
def argTag : SumArg → ℕ
  | .hsA _ => 0
  | .listA _ => 1
  | .tupleA _ => 2
  | .intA _ => 3
  | .strA _ => 4

/-- The type-tuples in `Sum`'s `dispatch_table`. -/
def sumTableShapes : List (List ℕ) :=
  [[], [0], [1], [2], [3], [3, 3], [3, 3, 3]]

/-- The bound index symbol of a range. -/
def rangeIdx : IdxRange → ℕ
  | .overList i _ => i
  | .overRange i _ _ _ => i
  | .overFock i _ => i

/-- The same range with its bound index symbol replaced. -/
def setRangeIdx : IdxRange → ℕ → IdxRange
  | .overList _ vs, j => .overList j vs
  | .overRange _ a b s, j => .overRange j a b s
  | .overFock _ hs, j => .overFock j hs

/-- Priming an index symbol until it avoids a collision set (an index
symbol is modelled by a natural number, a prime by a successor); the fuel
`avoid.length + 1` always suffices, since each collision consumes a
distinct member of `avoid`. -/
def freshIdx : ℕ → List ℕ → ℕ → ℕ
  | 0, _, i => i
  | fuel + 1, avoid, i =>
    if i ∈ avoid then freshIdx fuel avoid (i + 1) else i

/-- Modelled from the spec: `make_disjunct_indices` ("multiplying two
indexed sums by first renaming bound index symbols to avoid collision"),
as `assoc_indexed` uses it — rename each bound index symbol of the inner
sum's ranges that collides with the outer bound symbols (or with an
already-renamed inner one). -/
def renameRanges (avoid : List ℕ) : List IdxRange → List IdxRange
  | [] => []
  | r :: rest =>
    let j := freshIdx (avoid.length + 1) avoid (rangeIdx r)
    setRangeIdx r j :: renameRanges (j :: avoid) rest

/-- Outcome of a pass of the indexed-sum pipeline on the `(term, *ranges)`
operand tuple. -/
inductive SumPassResult where
  | done (e : OpExpr)
  | pair (term : OpExpr) (ranges : List IdxRange)

/-- Transcription of `assoc_indexed` (`algebraic_properties.py`, 35-66)
for `OperatorIndexedSum`: when the term is itself an instance of the class
(or a scalar multiple of one), rename its bound indices apart from the
outer ranges, concatenate the ranges, and short-circuit with the directly
constructed flattened sum — re-wrapped in the scalar prefactor unless it
is `1` (the modelled scalars are constants, so the prefactor never
contains a bound symbol and the `coeff * cls(...)` branch applies);
any other term is passed through unchanged. -/
def assocIndexed (term : OpExpr) (ranges : List IdxRange) : SumPassResult :=
  match term with
  | .indexedSum t rs =>
    .done (.indexedSum t (ranges ++ renameRanges (ranges.map rangeIdx) rs))
  | .scalarTimes c t =>
    match t with
    | .indexedSum t' rs =>
      let combined := ranges ++ renameRanges (ranges.map rangeIdx) rs
      if c = 1 then .done (.indexedSum t' combined)
      else .done (.scalarTimes c (.indexedSum t' combined))
    | _ => .pair term ranges
  | _ => .pair term ranges

/-- `OperatorIndexedSum.create`, running the class's `_simplifications`
pipeline `[assoc_indexed, scalars_to_op, indexed_sum_over_kronecker,
indexed_sum_over_const, match_replace]` (`operator_algebra.py`,
1011-1013): `assoc_indexed` and `scalars_to_op` are transcribed from the
snapshot (`scalars_to_op` converts a bare-scalar term, and leaves the
ranges — which are never scalars — alone); `indexed_sum_over_kronecker`
and `indexed_sum_over_const` are absent from the snapshot and not
described by the spec (the modelled constant scalars contain no Kronecker
deltas), so they are modelled as identity passes; the snapshot's
`OperatorIndexedSum._rules` is empty, so `match_replace` is a no-op and
the constructor is reached. -/
def createIndexedSum (term : OpExpr) (ranges : List IdxRange) : OpExpr :=
  match assocIndexed term ranges with
  | .done e => e
  | .pair t rs => .indexedSum (s2oE t) rs

/-- Transcription of `Sum(idx, *args, **kwargs)(term)`: dispatch on the
type-shape of `args` (`dispatch_table` keyed by the tuple of argument
types, a missing key raising `TypeError`), then call the selected range
builder (`_sum_over_fockspace` / `_sum_over_list` / `_sum_over_range`)
with `(term, idx, *args, **kwargs)` — a keyword argument the builder does
not accept, a duplicated argument, or (for a single integer) a missing
`to` argument raising `TypeError` — and build the indexed sum over the
resulting range through `term._indexed_sum_cls.create(term, idx_range)`,
i.e. `createIndexedSum` above. -/
def sumDispatch (idx : ℕ) (args : List SumArg) (kw : SumKwargs)
    (term : OpExpr) : Except PyErr OpExpr :=
  match args with
  | [] =>
    if kw.upTo ≠ none ∨ kw.step ≠ none then .error .typeError
    else
      match kw.hs with
      | some h => .ok (createIndexedSum term [.overFock idx [h]])
      | none => .ok (createIndexedSum term [.overFock idx (space term)])
  | [.hsA h] =>
    if kw.upTo ≠ none ∨ kw.step ≠ none ∨ kw.hs ≠ none then .error .typeError
    else .ok (createIndexedSum term [.overFock idx [h]])
  | [.listA vs] | [.tupleA vs] =>
    if kw.upTo ≠ none ∨ kw.step ≠ none ∨ kw.hs ≠ none then .error .typeError
    else .ok (createIndexedSum term [.overList idx vs])
  | [.intA a] =>
    if kw.hs ≠ none then .error .typeError
    else
      match kw.upTo with
      | none => .error .typeError
      | some b =>
        .ok (createIndexedSum term [.overRange idx a b (kw.step.getD 1)])
  | [.intA a, .intA b] =>
    if kw.hs ≠ none ∨ kw.upTo ≠ none then .error .typeError
    else .ok (createIndexedSum term [.overRange idx a b (kw.step.getD 1)])
  | [.intA a, .intA b, .intA c] =>
    if kw.hs ≠ none ∨ kw.upTo ≠ none ∨ kw.step ≠ none then .error .typeError
    else .ok (createIndexedSum term [.overRange idx a b c])
  | _ => .error .typeError

/-- Terms on which `OperatorIndexedSum.create` is the plain constructor:
neither an indexed sum nor a scalar multiple of one (which `assoc_indexed`
flattens) nor a bare scalar (which `scalars_to_op` converts). -/
def sumAtom : OpExpr → Bool
  | .scalarV _ => false
  | .indexedSum _ _ => false
  | .scalarTimes _ (.indexedSum _ _) => false
  | _ => true

theorem createIndexedSum_atom {term : OpExpr} (h : sumAtom term = true)
    (r : IdxRange) : createIndexedSum term [r] = .indexedSum term [r] := by
  match term, h with
  | .symbol _ _, _ | .zeroOp, _ | .idOp, _ | .plus _, _ | .times _, _
  | .adjointOp _, _ | .commutator _ _, _ => rfl
  | .scalarV _, h => simp [sumAtom] at h
  | .indexedSum _ _, h => simp [sumAtom] at h
  | .scalarTimes c t, h =>
    match t, h with
    | .symbol _ _, _ | .zeroOp, _ | .idOp, _ | .scalarV _, _
    | .scalarTimes _ _, _ | .plus _, _ | .times _, _ | .adjointOp _, _
    | .commutator _ _, _ => rfl
    | .indexedSum _ _, h => simp [sumAtom] at h

/-- C8 counterexample input: with a single integer argument and no
keyword arguments, `Sum(i, 5)(term)` does not sum over any range — the
dispatch selects `_sum_over_range`, whose required `to` parameter is
missing, so the call raises `TypeError`. -/
theorem claim_C8_counterexample :
    sumDispatch 0 [.intA 5] ⟨none, none, none⟩ (.symbol 0 [0]) =
      .error .typeError := rfl

/-- C8 (amended).  `Sum(idx, *args)(term)` dispatches on the type-shape of
`args`: no arguments sum over the basis of `term`'s Hilbert space (or of
the `hs` keyword argument's space); a single `LocalSpace` sums over that
space's basis; a single list or tuple sums over those explicit values; a
single integer requires the end of the range as the keyword argument `to`
(without it the call raises `TypeError`) and sums over `start..to`; two
or three integers sum over `start..stop` (default step 1) or
`start..stop..step`; and any argument shape outside the dispatch table
raises `TypeError`.  Stated for terms on which
`OperatorIndexedSum.create` is the plain constructor — a term that is
itself an indexed sum (or a scalar multiple of one) is flattened by
`create`'s `assoc_indexed` pass into a single combined-range sum instead
(see `createIndexedSum`, through which `sumDispatch` builds every
result). -/
theorem claim_C8_sum_dispatch (idx : ℕ) (term : OpExpr)
    (hterm : sumAtom term = true) :
    (sumDispatch idx [] ⟨none, none, none⟩ term =
      .ok (.indexedSum term [.overFock idx (space term)])) ∧
    (∀ h, sumDispatch idx [] ⟨some h, none, none⟩ term =
      .ok (.indexedSum term [.overFock idx [h]])) ∧
    (∀ h, sumDispatch idx [.hsA h] ⟨none, none, none⟩ term =
      .ok (.indexedSum term [.overFock idx [h]])) ∧
    (∀ vs, sumDispatch idx [.listA vs] ⟨none, none, none⟩ term =
      .ok (.indexedSum term [.overList idx vs])) ∧
    (∀ vs, sumDispatch idx [.tupleA vs] ⟨none, none, none⟩ term =
      .ok (.indexedSum term [.overList idx vs])) ∧
    (∀ a, sumDispatch idx [.intA a] ⟨none, none, none⟩ term =
      .error .typeError) ∧
    (∀ a b, sumDispatch idx [.intA a] ⟨none, some b, none⟩ term =
      .ok (.indexedSum term [.overRange idx a b 1])) ∧
    (∀ a b, sumDispatch idx [.intA a, .intA b] ⟨none, none, none⟩ term =
      .ok (.indexedSum term [.overRange idx a b 1])) ∧
    (∀ a b c, sumDispatch idx [.intA a, .intA b, .intA c]
        ⟨none, none, none⟩ term =
      .ok (.indexedSum term [.overRange idx a b c])) ∧
    (∀ args kw, args.map argTag ∉ sumTableShapes →
      sumDispatch idx args kw term = .error .typeError) := by
  refine ⟨?_, fun h => ?_, fun h => ?_, fun vs => ?_, fun vs => ?_,
    fun a => rfl, fun a b => ?_, fun a b => ?_, fun a b c => ?_, ?_⟩
  · show Except.ok (createIndexedSum term [.overFock idx (space term)]) = _
    rw [createIndexedSum_atom hterm]
  · show Except.ok (createIndexedSum term [.overFock idx [h]]) = _
    rw [createIndexedSum_atom hterm]
  · show Except.ok (createIndexedSum term [.overFock idx [h]]) = _
    rw [createIndexedSum_atom hterm]
  · show Except.ok (createIndexedSum term [.overList idx vs]) = _
    rw [createIndexedSum_atom hterm]
  · show Except.ok (createIndexedSum term [.overList idx vs]) = _
    rw [createIndexedSum_atom hterm]
  · show Except.ok (createIndexedSum term [.overRange idx a b 1]) = _
    rw [createIndexedSum_atom hterm]
  · show Except.ok (createIndexedSum term [.overRange idx a b 1]) = _
    rw [createIndexedSum_atom hterm]
  · show Except.ok (createIndexedSum term [.overRange idx a b c]) = _
    rw [createIndexedSum_atom hterm]
  intro args kw hnot
  match args with
  | [] => exact absurd (by simp [sumTableShapes]) hnot
  | [.hsA h] => exact absurd (by simp [sumTableShapes, argTag]) hnot
  | [.listA vs] => exact absurd (by simp [sumTableShapes, argTag]) hnot
  | [.tupleA vs] => exact absurd (by simp [sumTableShapes, argTag]) hnot
  | [.intA a] => exact absurd (by simp [sumTableShapes, argTag]) hnot
  | [.intA a, .intA b] => exact absurd (by simp [sumTableShapes, argTag]) hnot
  | [.intA a, .intA b, .intA c] =>
    exact absurd (by simp [sumTableShapes, argTag]) hnot
  | [.strA s] => rfl
  | .hsA h :: a :: rest => rfl
  | .listA vs :: a :: rest => rfl
  | .tupleA vs :: a :: rest => rfl
  | .strA s :: a :: rest => rfl
  | .intA a :: .hsA h :: rest => rfl
  | .intA a :: .listA vs :: rest => rfl
  | .intA a :: .tupleA vs :: rest => rfl
  | .intA a :: .strA s :: rest => rfl
  | .intA a :: .intA b :: .hsA h :: rest => rfl
  | .intA a :: .intA b :: .listA vs :: rest => rfl
  | .intA a :: .intA b :: .tupleA vs :: rest => rfl
  | .intA a :: .intA b :: .strA s :: rest => rfl
  | .intA a :: .intA b :: .intA c :: d :: rest => rfl

/-- Concrete instance of the amended C8: summing an operator symbol over
an explicit two-integer range builds the indexed sum over that range. -/
theorem claim_C8_witness :
    sumAtom (.symbol 0 [0]) = true ∧
      sumDispatch 0 [.intA 1, .intA 10] ⟨none, none, none⟩ (.symbol 0 [0]) =
        .ok (.indexedSum (.symbol 0 [0]) [.overRange 0 1 10 1]) :=
  ⟨by decide,
    (claim_C8_sum_dispatch 0 (.symbol 0 [0]) (by decide)).2.2.2.2.2.2.2.1
      1 10⟩

/-! ### Series expansion (C6)

`QuantumExpression.series_expand` (the wrapper, `abstract_quantum_algebra`
153-195) calls the per-class `_series_expand` and then normalizes each
coefficient: a coefficient equal to `0` (against a bare number, or
`is_zero`) becomes the algebra's canonical zero, a coefficient equal to
`1` becomes the canonical one, and every coefficient must be an instance
of the algebra's base class (`assert`).  Scalar coefficients are modelled
as constants, so a scalar's series is `(c, 0, ..., 0)`. -/

/-- `isinstance(v, Operator)`: everything but a bare scalar. -/
def isOperatorE : OpExpr → Bool
  | .scalarV _ => false
  | _ => true

mutual
/-- Well-formed operator expression: what any expression actually built
through the algebra's constructors satisfies — no bare scalar in operand
position, and sums/products have at least two operands (their `__init__`
raises otherwise). -/
def wfE : OpExpr → Bool
  | .symbol _ _ => true
  | .zeroOp => true
  | .idOp => true
  | .scalarV _ => false
  | .scalarTimes _ t => wfE t
  | .plus l => decide (2 ≤ l.length) && wfL l
  | .times l => decide (2 ≤ l.length) && wfL l
  | .adjointOp t => wfE t
  | .commutator a b => wfE a && wfE b
  | .indexedSum t _ => wfE t
/-- All members well-formed. -/
def wfL : List OpExpr → Bool
  | [] => true
  | x :: rest => wfE x && wfL rest
end

mutual
/-- No indexed-sum node anywhere in the expression. -/
def sumFree : OpExpr → Bool
  | .symbol _ _ => true
  | .zeroOp => true
  | .idOp => true
  | .scalarV _ => true
  | .scalarTimes _ t => sumFree t
  | .plus l => sumFreeL l
  | .times l => sumFreeL l
  | .adjointOp t => sumFree t
  | .commutator a b => sumFree a && sumFree b
  | .indexedSum _ _ => false
/-- All members indexed-sum free. -/
def sumFreeL : List OpExpr → Bool
  | [] => true
  | x :: rest => sumFree x && sumFreeL rest
end

/-- `v.is_zero` as the series machinery checks it on a coefficient that
may be a scalar (a scalar is zero when it equals the scalar algebra's
zero) or an operator (`is_zero`). -/
def isZeroCoeff : OpExpr → Bool
  | .scalarV c => decide (c = 0)
  | v => is_zero v

/-- The wrapper's per-coefficient normalization: `if v == 0 or v.is_zero:
v = self._zero`, `elif v == 1: v = self._one`. -/
def normCoeff (v : OpExpr) : OpExpr :=
  if eqNum v 0 || isZeroCoeff v then .zeroOp
  else if eqNum v 1 then .idOp
  else v

/-- Normalize one coefficient and check the wrapper's
`assert isinstance(v, self._base_cls)`. -/
def seriesAssert (v : OpExpr) : Except PyErr OpExpr :=
  let v' := normCoeff v
  if isOperatorE v' then .ok v' else .error .assertionFailed

/-- The wrapper's loop over the expansion's coefficients. -/
def seriesAsserts : List OpExpr → Except PyErr (List OpExpr)
  | [] => .ok []
  | v :: rest => do
    let v' ← seriesAssert v
    let rest' ← seriesAsserts rest
    .ok (v' :: rest')

/-- `QuantumExpression.__add__` as `_series_expand_combine_prod`'s
`sum += summand` uses it: scalar-plus-scalar stays scalar; a scalar added
to an operator is lifted to a multiple of the identity on the operator's
side; two operators add through `OperatorPlus.create`. -/
def addModel : OpExpr → OpExpr → OpExpr
  | .scalarV c, .scalarV d => .scalarV (c + d)
  | .scalarV c, y => createPlus [y, .scalarTimes c .idOp]
  | x, .scalarV c => createPlus [x, .scalarTimes c .idOp]
  | x, y => createPlus [x, y]

/-- One summand of `_series_expand_combine_prod`: the scalar `Zero` when
either factor `is_zero`, else the product. -/
def seriesSummand (x y : OpExpr) : OpExpr :=
  if isZeroCoeff x || isZeroCoeff y then .scalarV 0 else mulModel x y

/-- `sum = summands[0]; for summand in summands[1:]: if summand != 0:
sum += summand`. -/
def seriesSum : List OpExpr → OpExpr
  | [] => .scalarV 0
  | s₀ :: rest =>
    rest.foldl (fun acc s => if eqNum s 0 then acc else addModel acc s) s₀

/-- Transcription of `_series_expand_combine_prod`
(`abstract_quantum_algebra.py`, 817-838). -/
def seriesCombineProd (c1 c2 : List OpExpr) (order : ℕ) : List OpExpr :=
  (List.range (order + 1)).map fun n =>
    seriesSum ((List.range (n + 1)).map fun k =>
      seriesSummand (c1.getD k (.scalarV 0)) (c2.getD (n - k) (.scalarV 0)))

mutual
/-- The per-class `_series_expand` dispatch: the default implementation
treats the expression as constant (`(self,) + (Zero,) * order`); a sum
expands its operands and recombines each order through
`OperatorPlus.create` (`QuantumPlus._series_expand`); a product splits off
its first factor and combines with the rest (`QuantumTimes`, which
asserts at least two operands); a scalar multiple combines the scalar's
constant series with the term's (`ScalarTimesQuantumExpression`); an
`Adjoint` node maps `adjoint()` over its operand's series
(`SingleQuantumOperation`); a commutator recombines through
`Commutator.create` and `OperatorPlus.create`; an indexed sum raises
`NotImplementedError` (`QuantumIndexedSum._series_expand`). -/
def seriesRaw : OpExpr → ℕ → Except PyErr (List OpExpr)
  | .indexedSum _ _, _ => .error .notImplemented
  | .plus l, order => do
    let tuples ← seriesList l order
    .ok ((List.range (order + 1)).map fun n =>
      createPlus (tuples.map fun t => t.getD n (.scalarV 0)))
  | .times l, order =>
    match l with
    | a :: b :: rest => do
      let cfirst ← seriesExpand a order
      let crest ←
        match rest with
        | [] => seriesExpand b order
        | r :: rs => seriesExpand (.times (b :: r :: rs)) order
      .ok (seriesCombineProd cfirst crest order)
    | _ => .error .assertionFailed
  | .scalarTimes c t, order => do
    let te ← seriesExpand t order
    .ok (seriesCombineProd (.scalarV c :: List.replicate order (.scalarV 0))
      te order)
  | .adjointOp t, order => do
    let ope ← seriesExpand t order
    .ok (ope.map dagModel)
  | .commutator a b, order => do
    let ca ← seriesExpand a order
    let cb ← seriesExpand b order
    .ok ((List.range (order + 1)).map fun n =>
      createPlus ((List.range (n + 1)).map fun k =>
        createCommutator (ca.getD k (.scalarV 0)) (cb.getD (n - k) (.scalarV 0))))
  | x, order => .ok (x :: List.replicate order (.scalarV 0))
termination_by x order => (sizeOf x, 0)
/-- `series_expand`: run `_series_expand`, then normalize and check each
coefficient. -/
def seriesExpand (x : OpExpr) (order : ℕ) : Except PyErr (List OpExpr) := do
  let expansion ← seriesRaw x order
  seriesAsserts expansion
termination_by (sizeOf x, 1)
/-- `series_expand` of each operand of a sum. -/
def seriesList : List OpExpr → ℕ → Except PyErr (List (List OpExpr))
  | [], _ => .ok []
  | x :: rest, order => do
    let tx ← seriesExpand x order
    let trest ← seriesList rest order
    .ok (tx :: trest)
termination_by l order => (sizeOf l, 0)
end

theorem wfL_iff : ∀ l : List OpExpr, wfL l = true ↔ ∀ o ∈ l, wfE o = true := by
  intro l
  induction l with
  | nil => simp [wfL]
  | cons x rest ih =>
    rw [wfL, Bool.and_eq_true, ih]
    constructor
    · rintro ⟨hx, hrest⟩ o ho
      rcases List.mem_cons.mp ho with rfl | ho
      · exact hx
      · exact hrest o ho
    · intro h
      exact ⟨h x (List.mem_cons_self x rest),
        fun o ho => h o (List.mem_cons_of_mem x ho)⟩

theorem sumFreeL_iff : ∀ l : List OpExpr,
    sumFreeL l = true ↔ ∀ o ∈ l, sumFree o = true := by
  intro l
  induction l with
  | nil => simp [sumFreeL]
  | cons x rest ih =>
    rw [sumFreeL, Bool.and_eq_true, ih]
    constructor
    · rintro ⟨hx, hrest⟩ o ho
      rcases List.mem_cons.mp ho with rfl | ho
      · exact hx
      · exact hrest o ho
    · intro h
      exact ⟨h x (List.mem_cons_self x rest),
        fun o ho => h o (List.mem_cons_of_mem x ho)⟩

theorem wfE_not_scalarV {x : OpExpr} (h : wfE x = true) :
    isScalarVB x = false := by
  match x with
  | .symbol _ _ | .zeroOp | .idOp | .scalarTimes _ _ | .plus _ | .times _
  | .adjointOp _ | .commutator _ _ | .indexedSum _ _ => rfl
  | .scalarV _ => simp [wfE] at h

theorem isOperatorE_of_wf {x : OpExpr} (h : wfE x = true) :
    isOperatorE x = true := by
  match x with
  | .symbol _ _ | .zeroOp | .idOp | .scalarTimes _ _ | .plus _ | .times _
  | .adjointOp _ | .commutator _ _ | .indexedSum _ _ => rfl
  | .scalarV _ => simp [wfE] at h

theorem assocPlus_wf {ops : List OpExpr} (h : ∀ o ∈ ops, wfE o = true) :
    ∀ e ∈ assocPlus ops, wfE e = true := by
  intro e he
  rw [assocPlus, List.mem_flatMap] at he
  obtain ⟨a, ha, hea⟩ := he
  have hwa := h a ha
  match a, hwa with
  | .plus l, hwa =>
    rw [wfE, Bool.and_eq_true, wfL_iff] at hwa
    exact hwa.2 e hea
  | .symbol _ _, _ | .zeroOp, _ | .idOp, _ | .scalarV _, _
  | .scalarTimes _ _, _ | .times _, _ | .adjointOp _, _
  | .commutator _ _, _ | .indexedSum _ _, _ =>
    rw [List.mem_singleton] at hea
    subst hea
    assumption

theorem assocTimes_wf {ops : List OpExpr} (h : ∀ o ∈ ops, wfE o = true) :
    ∀ e ∈ assocTimes ops, wfE e = true := by
  intro e he
  rw [assocTimes, List.mem_flatMap] at he
  obtain ⟨a, ha, hea⟩ := he
  have hwa := h a ha
  match a, hwa with
  | .times l, hwa =>
    rw [wfE, Bool.and_eq_true, wfL_iff] at hwa
    exact hwa.2 e hea
  | .symbol _ _, _ | .zeroOp, _ | .idOp, _ | .scalarV _, _
  | .scalarTimes _ _, _ | .plus _, _ | .adjointOp _, _
  | .commutator _ _, _ | .indexedSum _ _, _ =>
    rw [List.mem_singleton] at hea
    subst hea
    assumption

/-- The `OperatorPlus` pipeline preserves well-formedness: `create` on
well-formed operands yields a well-formed expression. -/
theorem createPlus_wf {ops : List OpExpr} (h : ∀ o ∈ ops, wfE o = true) :
    wfE (createPlus ops) = true := by
  have hbase : ∀ e ∈ List.insertionSort leF (scalarsToOp (assocPlus ops)),
      wfE e = true := by
    intro e he
    rw [(List.perm_insertionSort leF _).mem_iff,
      scalarsToOp_eq_self (fun o ho => wfE_not_scalarV (assocPlus_wf h o ho))]
      at he
    exact assocPlus_wf h e he
  rw [createPlus]
  cases hfn : filter_neutral .zeroOp
      (List.insertionSort leF (scalarsToOp (assocPlus ops))) with
  | done e =>
    rcases filter_neutral_done hfn with rfl | he
    · rfl
    · exact hbase e he
  | pair fops =>
    obtain ⟨hfe, hflen⟩ := filter_neutral_pair hfn
    show wfE (match mrbPass plusBinClass fops with
      | PassResult.done e => e
      | PassResult.pair l => OpExpr.plus l) = true
    rw [mrbPass_no_rules plusBinClass (fun _ _ => rfl) fops (by omega)]
    show wfE (.plus fops) = true
    rw [wfE, Bool.and_eq_true, wfL_iff]
    refine ⟨by simp; omega, fun o ho => ?_⟩
    rw [hfe] at ho
    exact hbase o (List.mem_of_mem_filter ho)

/-- The `OperatorTimes` pipeline preserves well-formedness. -/
theorem createTimes_wf {ops : List OpExpr} (h : ∀ o ∈ ops, wfE o = true) :
    wfE (createTimes ops) = true := by
  have hbase : ∀ e ∈ List.insertionSort leD (assocTimes ops),
      wfE e = true := by
    intro e he
    rw [(List.perm_insertionSort leD _).mem_iff] at he
    exact assocTimes_wf h e he
  rw [createTimes]
  cases hfn : filter_neutral .idOp (List.insertionSort leD (assocTimes ops))
      with
  | done e =>
    rcases filter_neutral_done hfn with rfl | he
    · rfl
    · exact hbase e he
  | pair fops =>
    obtain ⟨hfe, hflen⟩ := filter_neutral_pair hfn
    show wfE (match mrbPass timesBinClass fops with
      | PassResult.done e => e
      | PassResult.pair l => OpExpr.times l) = true
    rw [mrbPass_no_rules timesBinClass (fun _ _ => rfl) fops (by omega)]
    show wfE (.times fops) = true
    rw [wfE, Bool.and_eq_true, wfL_iff]
    refine ⟨by simp; omega, fun o ho => ?_⟩
    rw [hfe] at ho
    exact hbase o (List.mem_of_mem_filter ho)

theorem mulModel_ops {x y : OpExpr} (hx : isScalarVB x = false)
    (hy : isScalarVB y = false) : mulModel x y = createTimes [x, y] := by
  unfold mulModel
  split
  · simp [isScalarVB] at hx
  · simp [isScalarVB] at hx
  · simp [isScalarVB] at hy
  · rfl

theorem mulModel_scalar_left {y : OpExpr} (c : ℤ)
    (hy : isScalarVB y = false) : mulModel (.scalarV c) y = .scalarTimes c y := by
  match y, hy with
  | .symbol _ _, _ | .zeroOp, _ | .idOp, _ | .scalarTimes _ _, _
  | .plus _, _ | .times _, _ | .adjointOp _, _ | .commutator _ _, _
  | .indexedSum _ _, _ => rfl

theorem addModel_ops {x y : OpExpr} (hx : isScalarVB x = false)
    (hy : isScalarVB y = false) : addModel x y = createPlus [x, y] := by
  unfold addModel
  split
  · simp [isScalarVB] at hx
  · simp [isScalarVB] at hx
  · simp [isScalarVB] at hy
  · rfl

theorem addModel_scalar_left {y : OpExpr} (c : ℤ)
    (hy : isScalarVB y = false) :
    addModel (.scalarV c) y = createPlus [y, .scalarTimes c .idOp] := by
  match y, hy with
  | .symbol _ _, _ | .zeroOp, _ | .idOp, _ | .scalarTimes _ _, _
  | .plus _, _ | .times _, _ | .adjointOp _, _ | .commutator _ _, _
  | .indexedSum _ _, _ => rfl

/-- The `Commutator` pipeline preserves well-formedness. -/
theorem createCommutator_wf {A B : OpExpr} (hA : wfE A = true)
    (hB : wfE B = true) : wfE (createCommutator A B) = true := by
  have hsA := s2oE_not_scalarV (wfE_not_scalarV hA)
  have hsB := s2oE_not_scalarV (wfE_not_scalarV hB)
  rw [createCommutator, hsA, hsB]
  by_cases hd : hsDisjoint (space A) (space B) = true
  · rw [if_pos hd]
    rfl
  · rw [if_neg hd]
    by_cases hk : keyF B < keyF A
    · rw [if_pos hk]
      show wfE (.scalarTimes (-1) (createCommutator B A)) = true
      rw [wfE, createCommutator, hsA, hsB,
        if_neg (by rw [hsDisjoint_comm]; exact hd),
        if_neg (fun hcon => absurd (lt_trans hk hcon) (lt_irrefl _))]
      rw [wfE, Bool.and_eq_true]
      exact ⟨hB, hA⟩
    · rw [if_neg hk]
      show wfE (.commutator A B) = true
      rw [wfE, Bool.and_eq_true]
      exact ⟨hA, hB⟩

theorem opExpr_sizeOf_pos (x : OpExpr) : 1 ≤ sizeOf x := by
  cases x <;> simp <;> omega

/-- Taking adjoints preserves well-formedness. -/
theorem dagModel_wf : ∀ (n : ℕ) (x : OpExpr), sizeOf x ≤ n →
    wfE x = true → wfE (dagModel x) = true := by
  intro n
  induction n with
  | zero =>
    intro x hx
    exact absurd (lt_of_lt_of_le (opExpr_sizeOf_pos x) hx) (by omega)
  | succ n ih =>
    intro x hx hwf
    match x with
    | .symbol _ _ => rfl
    | .zeroOp => rfl
    | .idOp => rfl
    | .scalarV _ => simp [wfE] at hwf
    | .scalarTimes c t =>
      rw [wfE] at hwf
      rw [dagModel, wfE]
      have hlt : sizeOf t < sizeOf (OpExpr.scalarTimes c t) := by
        simp
      exact ih t (by omega) hwf
    | .plus l =>
      rw [wfE, Bool.and_eq_true, wfL_iff] at hwf
      rw [dagModel, wfE, Bool.and_eq_true, wfL_iff, dagList_eq_map]
      refine ⟨by simpa using hwf.1, fun o ho => ?_⟩
      rw [List.mem_map] at ho
      obtain ⟨a, ha, rfl⟩ := ho
      have hlt : sizeOf a < sizeOf (OpExpr.plus l) := by
        have := List.sizeOf_lt_of_mem ha
        simp
        omega
      exact ih a (by omega) (hwf.2 a ha)
    | .times l =>
      rw [wfE, Bool.and_eq_true, wfL_iff] at hwf
      rw [dagModel]
      refine createTimes_wf fun o ho => ?_
      rw [List.mem_reverse, dagList_eq_map, List.mem_map] at ho
      obtain ⟨a, ha, rfl⟩ := ho
      have hlt : sizeOf a < sizeOf (OpExpr.times l) := by
        have := List.sizeOf_lt_of_mem ha
        simp
        omega
      exact ih a (by omega) (hwf.2 a ha)
    | .adjointOp t =>
      rw [wfE] at hwf
      rw [dagModel]
      exact hwf
    | .commutator a b =>
      rw [wfE, Bool.and_eq_true] at hwf
      rw [dagModel, wfE, Bool.and_eq_true]
      have hlta : sizeOf a < sizeOf (OpExpr.commutator a b) := by
        simp
        omega
      have hltb : sizeOf b < sizeOf (OpExpr.commutator a b) := by
        simp
      exact ⟨ih b (by omega) hwf.2, ih a (by omega) hwf.1⟩
    | .indexedSum t rs =>
      rw [wfE] at hwf
      rw [dagModel, wfE]
      have hlt : sizeOf t < sizeOf (OpExpr.indexedSum t rs) := by
        simp
        omega
      exact ih t (by omega) hwf

theorem normCoeff_wf {v : OpExpr} (h : wfE v = true) :
    wfE (normCoeff v) = true := by
  rw [normCoeff]
  by_cases h0 : (eqNum v 0 || isZeroCoeff v) = true
  · rw [if_pos h0]
    rfl
  · rw [if_neg h0]
    by_cases h1 : eqNum v 1 = true
    · rw [if_pos h1]
      rfl
    · rw [if_neg h1]
      exact h

theorem seriesAssert_ok_of_wf {v : OpExpr} (h : wfE v = true) :
    seriesAssert v = .ok (normCoeff v) := by
  rw [seriesAssert]
  show (if isOperatorE (normCoeff v) = true then
    Except.ok (normCoeff v) else Except.error PyErr.assertionFailed) = _
  rw [if_pos (isOperatorE_of_wf (normCoeff_wf h))]

theorem seriesAssert_ok_zero : seriesAssert (.scalarV 0) = .ok .zeroOp := rfl

theorem seriesAssert_props {v v' : OpExpr} (h : seriesAssert v = .ok v') :
    isOperatorE v' = true ∧
      ((eqNum v' 0 = true ∨ isZeroCoeff v' = true) → v' = .zeroOp) ∧
      (eqNum v' 1 = true → v' = .idOp) := by
  rw [seriesAssert] at h
  by_cases hop : isOperatorE (normCoeff v) = true
  · rw [if_pos hop] at h
    have hv' : v' = normCoeff v := by
      injection h with h
      exact h.symm
    subst hv'
    refine ⟨hop, ?_, ?_⟩ <;> rw [normCoeff] <;>
      by_cases h0 : (eqNum v 0 || isZeroCoeff v) = true
    · rw [if_pos h0]
      intro _
      rfl
    · rw [if_neg h0]
      by_cases h1 : eqNum v 1 = true
      · rw [if_pos h1]
        rintro (hc | hc) <;> simp [eqNum, isZeroCoeff, is_zero] at hc
      · rw [if_neg h1]
        rw [normCoeff, if_neg h0, if_neg h1] at hop
        rintro (hc | hc)
        · rw [Bool.or_eq_true] at h0
          exact absurd (Or.inl hc) h0
        · rw [Bool.or_eq_true] at h0
          exact absurd (Or.inr hc) h0
    · rw [if_pos h0]
      intro hc
      simp [eqNum] at hc
    · rw [if_neg h0]
      by_cases h1 : eqNum v 1 = true
      · rw [if_pos h1]
        intro _
        rfl
      · rw [if_neg h1]
        intro hc
        exact absurd hc h1
  · rw [if_neg hop] at h
    exact absurd h (by simp)

theorem seriesAsserts_ok {l : List OpExpr}
    (h : ∀ v ∈ l, wfE v = true ∨ v = .scalarV 0) :
    ∃ res, seriesAsserts l = .ok res ∧ res.length = l.length ∧
      ∀ v' ∈ res, wfE v' = true := by
  induction l with
  | nil => exact ⟨[], rfl, rfl, by simp⟩
  | cons v rest ih =>
    obtain ⟨res, hres, hlen, hwf⟩ :=
      ih fun o ho => h o (List.mem_cons_of_mem v ho)
    have hv := h v (List.mem_cons_self v rest)
    have hstep : ∃ v', seriesAssert v = .ok v' ∧ wfE v' = true := by
      rcases hv with hv | rfl
      · exact ⟨normCoeff v, seriesAssert_ok_of_wf hv, normCoeff_wf hv⟩
      · exact ⟨.zeroOp, seriesAssert_ok_zero, rfl⟩
    obtain ⟨v', hv', hwfv'⟩ := hstep
    refine ⟨v' :: res, ?_, by simp [hlen], ?_⟩
    · rw [seriesAsserts, hv', hres]
      rfl
    · intro o ho
      rcases List.mem_cons.mp ho with rfl | ho
      · exact hwfv'
      · exact hwf o ho

theorem seriesAsserts_mem : ∀ {l res : List OpExpr},
    seriesAsserts l = .ok res → ∀ v' ∈ res, ∃ v, seriesAssert v = .ok v' := by
  intro l
  induction l with
  | nil =>
    intro res h v' hv'
    rw [seriesAsserts] at h
    injection h with h
    subst h
    exact absurd hv' (List.not_mem_nil v')
  | cons v rest ih =>
    intro res h v' hv'
    rw [seriesAsserts] at h
    cases hv : seriesAssert v with
    | error e =>
      rw [hv] at h
      have h2 : (Except.error e : Except PyErr (List OpExpr)) = .ok res := h
      exact Except.noConfusion h2
    | ok w =>
      rw [hv] at h
      cases hrest : seriesAsserts rest with
      | error e =>
        rw [hrest] at h
        have h2 : (Except.error e : Except PyErr (List OpExpr)) = .ok res := h
        exact Except.noConfusion h2
      | ok ws =>
        rw [hrest] at h
        have h' : w :: ws = res := by
          have : (Except.ok (w :: ws) : Except PyErr (List OpExpr)) =
              .ok res := h
          injection this
        subst h'
        rcases List.mem_cons.mp hv' with rfl | hv'
        · exact ⟨v, hv⟩
        · exact ih hrest v' hv'

theorem getD_mem_or {α : Type} (l : List α) (k : ℕ) (d : α) :
    l.getD k d ∈ l ∨ l.getD k d = d := by
  rcases lt_or_ge k l.length with hk | hk
  · left
    rw [List.getD_eq_getElem l d hk]
    exact List.getElem_mem hk
  · right
    exact List.getD_eq_default l d hk

theorem seriesSummand_shape {x y : OpExpr}
    (hx : wfE x = true ∨ isScalarVB x = true)
    (hy : wfE y = true ∨ y = .scalarV 0) :
    wfE (seriesSummand x y) = true ∨ seriesSummand x y = .scalarV 0 := by
  rw [seriesSummand]
  by_cases hz : (isZeroCoeff x || isZeroCoeff y) = true
  · rw [if_pos hz]
    exact Or.inr rfl
  · rw [if_neg hz]
    rw [Bool.or_eq_true] at hz
    push_neg at hz
    have hy' : wfE y = true := by
      rcases hy with hy | rfl
      · exact hy
      · exact absurd rfl hz.2
    left
    rcases hx with hx | hx
    · rw [mulModel_ops (wfE_not_scalarV hx) (wfE_not_scalarV hy')]
      exact createTimes_wf (by
        intro o ho
        rcases List.mem_cons.mp ho with rfl | ho
        · exact hx
        · rw [List.mem_singleton] at ho
          subst ho
          exact hy')
    · match x, hx with
      | .scalarV c, _ =>
        rw [mulModel_scalar_left c (wfE_not_scalarV hy')]
        rw [wfE]
        exact hy'

theorem seriesSum_shape {l : List OpExpr}
    (h : ∀ s ∈ l, wfE s = true ∨ s = .scalarV 0) :
    wfE (seriesSum l) = true ∨ seriesSum l = .scalarV 0 := by
  match l with
  | [] => exact Or.inr rfl
  | s₀ :: rest =>
    rw [seriesSum]
    have haux : ∀ (m : List OpExpr) (acc : OpExpr),
        (∀ s ∈ m, wfE s = true ∨ s = .scalarV 0) →
        (wfE acc = true ∨ acc = .scalarV 0) →
        wfE (m.foldl
          (fun acc s => if eqNum s 0 = true then acc else addModel acc s)
          acc) = true ∨
        m.foldl (fun acc s => if eqNum s 0 = true then acc else addModel acc s)
          acc = .scalarV 0 := by
      intro m
      induction m with
      | nil => intro acc _ hacc; exact hacc
      | cons s ms ihm =>
        intro acc hm hacc
        rw [List.foldl_cons]
        refine ihm _ (fun o ho => hm o (List.mem_cons_of_mem s ho)) ?_
        by_cases h0 : eqNum s 0 = true
        · rw [if_pos h0]
          exact hacc
        · rw [if_neg h0]
          have hs : wfE s = true := by
            rcases hm s (List.mem_cons_self s ms) with hs | rfl
            · exact hs
            · exact absurd rfl h0
          left
          rcases hacc with hacc | rfl
          · rw [addModel_ops (wfE_not_scalarV hacc) (wfE_not_scalarV hs)]
            exact createPlus_wf (by
              intro o ho
              rcases List.mem_cons.mp ho with rfl | ho
              · exact hacc
              · rw [List.mem_singleton] at ho
                subst ho
                exact hs)
          · rw [addModel_scalar_left 0 (wfE_not_scalarV hs)]
            exact createPlus_wf (by
              intro o ho
              rcases List.mem_cons.mp ho with rfl | ho
              · exact hs
              · rw [List.mem_singleton] at ho
                subst ho
                rfl)
    exact haux rest s₀ (fun o ho => h o (List.mem_cons_of_mem s₀ ho))
      (h s₀ (List.mem_cons_self s₀ rest))

theorem seriesCombineProd_shape {c1 c2 : List OpExpr} {order : ℕ}
    (h1 : ∀ v ∈ c1, wfE v = true ∨ isScalarVB v = true)
    (h2 : ∀ v ∈ c2, wfE v = true) :
    (seriesCombineProd c1 c2 order).length = order + 1 ∧
      ∀ v ∈ seriesCombineProd c1 c2 order,
        wfE v = true ∨ v = .scalarV 0 := by
  constructor
  · rw [seriesCombineProd]
    simp
  · intro v hv
    rw [seriesCombineProd, List.mem_map] at hv
    obtain ⟨nn, _, rfl⟩ := hv
    refine seriesSum_shape ?_
    intro s hs
    rw [List.mem_map] at hs
    obtain ⟨k, _, rfl⟩ := hs
    refine seriesSummand_shape ?_ ?_
    · rcases getD_mem_or c1 k (.scalarV 0) with hm | hd
      · exact (h1 _ hm).imp_right id
      · rw [hd]
        exact Or.inr rfl
    · rcases getD_mem_or c2 (nn - k) (.scalarV 0) with hm | hd
      · exact Or.inl (h2 _ hm)
      · exact Or.inr hd

theorem sizeOf_mem_lt_plus {o : OpExpr} {l : List OpExpr} (h : o ∈ l) :
    sizeOf o < sizeOf (OpExpr.plus l) := by
  have h1 := List.sizeOf_lt_of_mem h
  have h2 : sizeOf (OpExpr.plus l) = 1 + sizeOf l := by simp
  omega

theorem sizeOf_mem_lt_times {o : OpExpr} {l : List OpExpr} (h : o ∈ l) :
    sizeOf o < sizeOf (OpExpr.times l) := by
  have h1 := List.sizeOf_lt_of_mem h
  have h2 : sizeOf (OpExpr.times l) = 1 + sizeOf l := by simp
  omega

theorem sizeOf_times_tail (a : OpExpr) (l : List OpExpr) :
    sizeOf (OpExpr.times l) < sizeOf (OpExpr.times (a :: l)) := by
  have h0 := opExpr_sizeOf_pos a
  have h2 : sizeOf (OpExpr.times l) = 1 + sizeOf l := by simp
  have h3 : sizeOf (OpExpr.times (a :: l)) = 1 + (1 + sizeOf a + sizeOf l) :=
    by simp
  omega

/-- Totality and shape of `series_expand` on well-formed, indexed-sum-free
expressions: it succeeds, returns `order + 1` coefficients, and every
coefficient is a well-formed operator expression. -/
theorem seriesExpand_total : ∀ (n : ℕ) (x : OpExpr) (order : ℕ),
    sizeOf x ≤ n → wfE x = true → sumFree x = true →
    ∃ res, seriesExpand x order = .ok res ∧ res.length = order + 1 ∧
      ∀ v ∈ res, wfE v = true := by
  intro n
  induction n with
  | zero =>
    intro x order hx _ _
    have := opExpr_sizeOf_pos x
    omega
  | succ n ih =>
    intro x order hx hwf hsf
    match x, hx, hwf, hsf with
    | .symbol i hs, hx, hwf, hsf =>
      have hexp : seriesExpand (.symbol i hs) order =
          seriesAsserts (.symbol i hs :: List.replicate order (.scalarV 0)) :=
        by
        rw [seriesExpand, seriesRaw]
        try rfl
        all_goals simp
      have helt : ∀ v ∈
          (.symbol i hs :: List.replicate order (.scalarV 0) : List OpExpr),
          wfE v = true ∨ v = .scalarV 0 := by
        intro v hv
        rcases List.mem_cons.mp hv with rfl | hv
        · exact Or.inl rfl
        · exact Or.inr (List.eq_of_mem_replicate hv)
      obtain ⟨res, hres, hlen, hwfres⟩ := seriesAsserts_ok helt
      refine ⟨res, by rw [hexp]; exact hres, by rw [hlen]; simp, hwfres⟩
    | .zeroOp, hx, hwf, hsf =>
      have hexp : seriesExpand .zeroOp order =
          seriesAsserts (.zeroOp :: List.replicate order (.scalarV 0)) := by
        rw [seriesExpand, seriesRaw]
        try rfl
        all_goals simp
      have helt : ∀ v ∈
          (.zeroOp :: List.replicate order (.scalarV 0) : List OpExpr),
          wfE v = true ∨ v = .scalarV 0 := by
        intro v hv
        rcases List.mem_cons.mp hv with rfl | hv
        · exact Or.inl rfl
        · exact Or.inr (List.eq_of_mem_replicate hv)
      obtain ⟨res, hres, hlen, hwfres⟩ := seriesAsserts_ok helt
      refine ⟨res, by rw [hexp]; exact hres, by rw [hlen]; simp, hwfres⟩
    | .idOp, hx, hwf, hsf =>
      have hexp : seriesExpand .idOp order =
          seriesAsserts (.idOp :: List.replicate order (.scalarV 0)) := by
        rw [seriesExpand, seriesRaw]
        try rfl
        all_goals simp
      have helt : ∀ v ∈
          (.idOp :: List.replicate order (.scalarV 0) : List OpExpr),
          wfE v = true ∨ v = .scalarV 0 := by
        intro v hv
        rcases List.mem_cons.mp hv with rfl | hv
        · exact Or.inl rfl
        · exact Or.inr (List.eq_of_mem_replicate hv)
      obtain ⟨res, hres, hlen, hwfres⟩ := seriesAsserts_ok helt
      refine ⟨res, by rw [hexp]; exact hres, by rw [hlen]; simp, hwfres⟩
    | .scalarV c, hx, hwf, hsf => simp [wfE] at hwf
    | .scalarTimes c t, hx, hwf, hsf =>
      rw [wfE] at hwf
      rw [sumFree] at hsf
      have hlt : sizeOf t < sizeOf (OpExpr.scalarTimes c t) := by simp
      obtain ⟨te, hte, htelen, htewf⟩ := ih t order (by omega) hwf hsf
      have hexp : seriesExpand (.scalarTimes c t) order =
          seriesAsserts (seriesCombineProd
            (.scalarV c :: List.replicate order (.scalarV 0)) te order) := by
        rw [seriesExpand, seriesRaw, hte]
        try rfl
        all_goals simp
      have h1 : ∀ v ∈
          (.scalarV c :: List.replicate order (.scalarV 0) : List OpExpr),
          wfE v = true ∨ isScalarVB v = true := by
        intro v hv
        rcases List.mem_cons.mp hv with rfl | hv
        · exact Or.inr rfl
        · rw [List.eq_of_mem_replicate hv]
          exact Or.inr rfl
      obtain ⟨hclen, hcsh⟩ := seriesCombineProd_shape h1 htewf
      obtain ⟨res, hres, hlen, hwfres⟩ := seriesAsserts_ok hcsh
      refine ⟨res, by rw [hexp]; exact hres, by rw [hlen, hclen], hwfres⟩
    | .plus l, hx, hwf, hsf =>
      rw [wfE, Bool.and_eq_true, wfL_iff] at hwf
      rw [sumFree, sumFreeL_iff] at hsf
      have hszl : sizeOf l ≤ n := by
        have h2 : sizeOf (OpExpr.plus l) = 1 + sizeOf l := by simp
        omega
      have hlist : ∀ (m : List OpExpr), sizeOf m ≤ sizeOf l + 1 →
          (∀ o ∈ m, wfE o = true) → (∀ o ∈ m, sumFree o = true) →
          ∃ ts, seriesList m order = .ok ts ∧
            ∀ t ∈ ts, t.length = order + 1 ∧ ∀ v ∈ t, wfE v = true := by
        intro m
        induction m with
        | nil =>
          exact fun _ _ _ => ⟨[], by rw [seriesList], by simp⟩
        | cons o rest ihm =>
          intro hm hwfm hsfm
          have hco : sizeOf (o :: rest) = 1 + sizeOf o + sizeOf rest := by simp
          have hpos : 1 ≤ sizeOf rest := by
            cases rest <;> simp <;> omega
          obtain ⟨tc, hto, htolen, htowf⟩ := ih o order (by omega)
            (hwfm o (List.mem_cons_self o rest))
            (hsfm o (List.mem_cons_self o rest))
          obtain ⟨ts, hts, htsp⟩ := ihm (by omega)
            (fun o' ho' => hwfm o' (List.mem_cons_of_mem o ho'))
            (fun o' ho' => hsfm o' (List.mem_cons_of_mem o ho'))
          refine ⟨tc :: ts, ?_, ?_⟩
          · rw [seriesList, hto, hts]
            rfl
          · intro t ht
            rcases List.mem_cons.mp ht with rfl | ht
            · exact ⟨htolen, htowf⟩
            · exact htsp t ht
      obtain ⟨ts, hts, htsp⟩ := hlist l (by omega) hwf.2 hsf
      have hexp : seriesExpand (.plus l) order =
          seriesAsserts ((List.range (order + 1)).map fun nn =>
            createPlus (ts.map fun t => t.getD nn (.scalarV 0))) := by
        rw [seriesExpand, seriesRaw, hts]
        try rfl
        all_goals simp
      have hcols : ∀ v ∈ (List.range (order + 1)).map fun nn =>
          createPlus (ts.map fun t => t.getD nn (.scalarV 0)),
          wfE v = true ∨ v = .scalarV 0 := by
        intro v hv
        rw [List.mem_map] at hv
        obtain ⟨nn, hnn, rfl⟩ := hv
        rw [List.mem_range] at hnn
        left
        refine createPlus_wf ?_
        intro e he
        rw [List.mem_map] at he
        obtain ⟨t, ht, rfl⟩ := he
        obtain ⟨htlen, htwf⟩ := htsp t ht
        have hk : nn < t.length := by omega
        rw [List.getD_eq_getElem t _ hk]
        exact htwf _ (List.getElem_mem hk)
      obtain ⟨res, hres, hlen, hwfres⟩ := seriesAsserts_ok hcols
      refine ⟨res, by rw [hexp]; exact hres, by rw [hlen]; simp, hwfres⟩
    | .times l, hx, hwf, hsf =>
      rw [wfE, Bool.and_eq_true, wfL_iff] at hwf
      rw [sumFree, sumFreeL_iff] at hsf
      have hlen2 : 2 ≤ l.length := by
        have := hwf.1
        simpa using this
      have hwfl := hwf.2
      match l, hlen2, hwfl, hsf, hx with
      | a :: b :: rest, _, hwfl, hsf, hx =>
        match rest, hwfl, hsf, hx with
        | [], hwfl, hsf, hx =>
          have hlta : sizeOf a < sizeOf (OpExpr.times [a, b]) :=
            sizeOf_mem_lt_times (by simp)
          have hltb : sizeOf b < sizeOf (OpExpr.times [a, b]) :=
            sizeOf_mem_lt_times (by simp)
          obtain ⟨ca, hca, hcalen, hcawf⟩ := ih a order (by omega)
            (hwfl a (by simp)) (hsf a (by simp))
          obtain ⟨cb, hcb, hcblen, hcbwf⟩ := ih b order (by omega)
            (hwfl b (by simp)) (hsf b (by simp))
          have hexp : seriesExpand (.times [a, b]) order =
              seriesAsserts (seriesCombineProd ca cb order) := by
            rw [seriesExpand, seriesRaw, hca, hcb]
            try rfl
            all_goals simp
          obtain ⟨hclen, hcsh⟩ := seriesCombineProd_shape
            (fun v hv => Or.inl (hcawf v hv)) hcbwf
          obtain ⟨res, hres, hlen, hwfres⟩ := seriesAsserts_ok hcsh
          refine ⟨res, by rw [hexp]; exact hres, by rw [hlen, hclen], hwfres⟩
        | r :: rs, hwfl, hsf, hx =>
          have hlta : sizeOf a < sizeOf (OpExpr.times (a :: b :: r :: rs)) :=
            sizeOf_mem_lt_times (by simp)
          have hltt : sizeOf (OpExpr.times (b :: r :: rs)) <
              sizeOf (OpExpr.times (a :: b :: r :: rs)) :=
            sizeOf_times_tail a (b :: r :: rs)
          have hwfb : wfE (.times (b :: r :: rs)) = true := by
            rw [wfE, Bool.and_eq_true, wfL_iff]
            exact ⟨by simp,
              fun o ho => hwfl o (List.mem_cons_of_mem a ho)⟩
          have hsfb : sumFree (.times (b :: r :: rs)) = true := by
            rw [sumFree, sumFreeL_iff]
            exact fun o ho => hsf o (List.mem_cons_of_mem a ho)
          obtain ⟨ca, hca, hcalen, hcawf⟩ := ih a order (by omega)
            (hwfl a (by simp)) (hsf a (by simp))
          obtain ⟨cb, hcb, hcblen, hcbwf⟩ :=
            ih (.times (b :: r :: rs)) order (by omega) hwfb hsfb
          have hraw : seriesRaw (.times (a :: b :: r :: rs)) order =
              .ok (seriesCombineProd ca cb order) := by
            rw [seriesRaw]
            show (do
              let cfirst ← seriesExpand a order
              let crest ← seriesExpand (.times (b :: r :: rs)) order
              Except.ok (seriesCombineProd cfirst crest order) :
                Except PyErr (List OpExpr)) = _
            rw [hca, hcb]
            rfl
          have hexp : seriesExpand (.times (a :: b :: r :: rs)) order =
              seriesAsserts (seriesCombineProd ca cb order) := by
            rw [seriesExpand, hraw]
            rfl
          obtain ⟨hclen, hcsh⟩ := seriesCombineProd_shape
            (fun v hv => Or.inl (hcawf v hv)) hcbwf
          obtain ⟨res, hres, hlen, hwfres⟩ := seriesAsserts_ok hcsh
          refine ⟨res, by rw [hexp]; exact hres, by rw [hlen, hclen], hwfres⟩
    | .adjointOp t, hx, hwf, hsf =>
      rw [wfE] at hwf
      rw [sumFree] at hsf
      have hlt : sizeOf t < sizeOf (OpExpr.adjointOp t) := by simp
      obtain ⟨te, hte, htelen, htewf⟩ := ih t order (by omega) hwf hsf
      have hexp : seriesExpand (.adjointOp t) order =
          seriesAsserts (te.map dagModel) := by
        rw [seriesExpand, seriesRaw, hte]
        try rfl
        all_goals simp
      have hels : ∀ v ∈ te.map dagModel, wfE v = true ∨ v = .scalarV 0 := by
        intro v hv
        rw [List.mem_map] at hv
        obtain ⟨w, hw, rfl⟩ := hv
        exact Or.inl (dagModel_wf (sizeOf w) w le_rfl (htewf w hw))
      obtain ⟨res, hres, hlen, hwfres⟩ := seriesAsserts_ok hels
      refine ⟨res, by rw [hexp]; exact hres,
        by rw [hlen]; simp [htelen], hwfres⟩
    | .commutator a b, hx, hwf, hsf =>
      rw [wfE, Bool.and_eq_true] at hwf
      rw [sumFree, Bool.and_eq_true] at hsf
      have hlta : sizeOf a < sizeOf (OpExpr.commutator a b) := by
        simp
        omega
      have hltb : sizeOf b < sizeOf (OpExpr.commutator a b) := by simp
      obtain ⟨ca, hca, hcalen, hcawf⟩ := ih a order (by omega) hwf.1 hsf.1
      obtain ⟨cb, hcb, hcblen, hcbwf⟩ := ih b order (by omega) hwf.2 hsf.2
      have hexp : seriesExpand (.commutator a b) order =
          seriesAsserts ((List.range (order + 1)).map fun nn =>
            createPlus ((List.range (nn + 1)).map fun k =>
              createCommutator (ca.getD k (.scalarV 0))
                (cb.getD (nn - k) (.scalarV 0)))) := by
        rw [seriesExpand, seriesRaw, hca, hcb]
        try rfl
        all_goals simp
      have hcols : ∀ v ∈ (List.range (order + 1)).map fun nn =>
          createPlus ((List.range (nn + 1)).map fun k =>
            createCommutator (ca.getD k (.scalarV 0))
              (cb.getD (nn - k) (.scalarV 0))),
          wfE v = true ∨ v = .scalarV 0 := by
        intro v hv
        rw [List.mem_map] at hv
        obtain ⟨nn, hnn, rfl⟩ := hv
        rw [List.mem_range] at hnn
        left
        refine createPlus_wf ?_
        intro e he
        rw [List.mem_map] at he
        obtain ⟨k, hk, rfl⟩ := he
        rw [List.mem_range] at hk
        have hk1 : k < ca.length := by omega
        have hk2 : nn - k < cb.length := by omega
        rw [List.getD_eq_getElem ca _ hk1, List.getD_eq_getElem cb _ hk2]
        exact createCommutator_wf (hcawf _ (List.getElem_mem hk1))
          (hcbwf _ (List.getElem_mem hk2))
      obtain ⟨res, hres, hlen, hwfres⟩ := seriesAsserts_ok hcols
      refine ⟨res, by rw [hexp]; exact hres, by rw [hlen]; simp, hwfres⟩
    | .indexedSum t rs, hx, hwf, hsf => simp [sumFree] at hsf

/-- C6 counterexample: the claim quantifies over every quantum expression,
but `QuantumIndexedSum._series_expand` raises `NotImplementedError`, so
`series_expand` on an indexed sum raises instead of returning `N + 1`
coefficients. -/
theorem claim_C6_counterexample :
    seriesExpand (.indexedSum (.symbol 0 [0]) [.overFock 0 [0]]) 3 =
      .error .notImplemented := by
  rw [seriesExpand, seriesRaw]
  rfl

/-- C6 (amended: restricted to expressions containing no indexed sum, on
which `QuantumIndexedSum._series_expand` would raise `NotImplementedError`,
and to well-formed expressions, i.e. those actually built through the
algebra's constructors).  `x.series_expand(param, about, N)` returns a
tuple of exactly `N + 1` coefficients, each an instance of the algebra's
base class; every coefficient equal to `0` is the canonical
`ZeroOperator` (not a bare numeric zero) and every coefficient equal to
`1` is the canonical `IdentityOperator`. -/
theorem claim_C6_series_expand (x : OpExpr) (order : ℕ)
    (hwf : wfE x = true) (hsf : sumFree x = true) :
    ∃ res, seriesExpand x order = .ok res ∧ res.length = order + 1 ∧
      ∀ v ∈ res, isOperatorE v = true ∧
        ((eqNum v 0 = true ∨ isZeroCoeff v = true) → v = .zeroOp) ∧
        (eqNum v 1 = true → v = .idOp) := by
  obtain ⟨res, hexp, hlen, _⟩ :=
    seriesExpand_total (sizeOf x) x order le_rfl hwf hsf
  refine ⟨res, hexp, hlen, ?_⟩
  rw [seriesExpand] at hexp
  cases hraw : seriesRaw x order with
  | error e =>
    rw [hraw] at hexp
    have h2 : (Except.error e : Except PyErr (List OpExpr)) = .ok res := hexp
    exact absurd h2 (by simp)
  | ok raw =>
    rw [hraw] at hexp
    have h2 : seriesAsserts raw = .ok res := hexp
    intro v hv
    obtain ⟨w, hw⟩ := seriesAsserts_mem h2 v hv
    exact seriesAssert_props hw

/-- Concrete instance of the amended C6: the series of an operator symbol
to order 2 is a 3-tuple of operator coefficients with canonical zeros and
ones. -/
theorem claim_C6_witness :
    ∃ res, seriesExpand (.symbol 0 [0]) 2 = .ok res ∧ res.length = 2 + 1 ∧
      ∀ v ∈ res, isOperatorE v = true ∧
        ((eqNum v 0 = true ∨ isZeroCoeff v = true) → v = .zeroOp) ∧
        (eqNum v 1 = true → v = .idOp) :=
  claim_C6_series_expand (.symbol 0 [0]) 2 (by decide) (by decide)

/-- Concrete instance of the amended C4: `create` on two symbols builds a
sorted sum, and re-running `create` on its arguments returns it. -/
theorem claim_C4_witness :
    createPlus [.symbol 1 [0], .symbol 0 [0], .scalarV 3] =
      .plus [.scalarTimes 3 .idOp, .symbol 0 [0], .symbol 1 [0]] ∧
    createPlus [.scalarTimes 3 .idOp, .symbol 0 [0], .symbol 1 [0]] =
      .plus [.scalarTimes 3 .idOp, .symbol 0 [0], .symbol 1 [0]] := by
  have h1 : createPlus [.symbol 1 [0], .symbol 0 [0], .scalarV 3] =
      .plus [.scalarTimes 3 .idOp, .symbol 0 [0], .symbol 1 [0]] := by decide
  exact ⟨h1, claim_C4_create_idempotent _ _ (by decide) h1⟩

end QnetProof
